import Mathlib

/-!
Verification of the pychuck live-coding session manager (command parser,
session/shred registry, project versioning store, command executor).

Strings are modelled as `List Char`.  Python built-ins used by the code
(`str.split`, `str.rsplit(sep, 1)`, `int(...)`, `str.strip`, f-string
rendering of integers) are given executable models below; approximations
are noted at each definition (ASCII character classes instead of full
Unicode).  Machine floats never influence any verified property; where the
code stores a float we keep the raw text or an opaque integer instead.
-/

namespace Chuck

/-! ## Python string and integer primitives -/

/-- Characters Python's `str.strip()` and the regex class `\s` treat as
whitespace (ASCII subset of Python's Unicode whitespace). -/
def pyWs (c : Char) : Bool :=
  c = ' ' || c = '\t' || c = '\n' || c = '\r' || c = '\x0b' || c = '\x0c'

/-- Model of Python `str.strip()`: drop whitespace from both ends. -/
def pyStrip (s : List Char) : List Char :=
  ((s.dropWhile pyWs).reverse.dropWhile pyWs).reverse

/-- Decimal digit value of an ASCII digit character. -/
def digitVal (c : Char) : Nat := c.toNat - 48

/-- Digit run with optional single underscores between digits, as accepted
by Python's `int()` after the optional sign (`digit ( "_"? digit )*`).
`acc` is the value of the digits consumed so far. -/
def digitsUCore (acc : Nat) : List Char → Option Nat
  | [] => some acc
  | c :: cs =>
    if c = '_' then
      match cs with
      | [] => none
      | c2 :: cs2 => if c2.isDigit then digitsUCore (acc * 10 + digitVal c2) cs2 else none
    else if c.isDigit then digitsUCore (acc * 10 + digitVal c) cs else none

/-- Nonempty digit run with optional single underscores between digits. -/
def digitsU : List Char → Option Nat
  | [] => none
  | c :: cs => if c.isDigit then digitsUCore (digitVal c) cs else none

/-- Model of Python `int(s)` on a string: strip whitespace, optional sign,
then digits with optional single underscores between them (ASCII digits;
Python additionally accepts non-ASCII decimal digits). `none` models the
`ValueError` raised on any other input. -/
def pyInt (s : List Char) : Option Int :=
  let t := pyStrip s
  if t.head? = some '+' then (digitsU (t.drop 1)).map Int.ofNat
  else if t.head? = some '-' then (digitsU (t.drop 1)).map (fun n => -(n : Int))
  else (digitsU t).map Int.ofNat

/-- Decimal rendering of a natural number, most significant digit first.
The fuel argument makes the definition structurally recursive; it is
always called with enough fuel. -/
def natReprAux : Nat → Nat → List Char
  | 0, _ => []
  | fuel + 1, n =>
    if n < 10 then [Nat.digitChar n]
    else natReprAux fuel (n / 10) ++ [Nat.digitChar (n % 10)]

/-- Decimal rendering of a natural number (Python `str(n)` for `n ≥ 0`). -/
def natRepr (n : Nat) : List Char := natReprAux (n + 1) n

/-- Python `str(i)` for an integer (f-string rendering). -/
def intRepr (i : Int) : List Char :=
  if i < 0 then '-' :: natRepr i.natAbs else natRepr i.toNat

/-- Python `str.split(sep)` for a one-character separator: splits on every
occurrence, keeping empty pieces (`"a--b".split("-") = ["a","","b"]`,
`"".split("-") = [""]`). -/
def splitOn (sep : Char) : List Char → List (List Char)
  | [] => [[]]
  | c :: cs =>
    if c = sep then [] :: splitOn sep cs
    else
      match splitOn sep cs with
      | [] => [[c]]
      | p :: ps => (c :: p) :: ps

/-- Python `s.rsplit(sep, 1)` when `sep` occurs in `s`: split at the last
occurrence.  Returns `none` when `sep` does not occur. -/
def rsplit1 (sep : Char) : List Char → Option (List Char × List Char)
  | [] => none
  | c :: cs =>
    match rsplit1 sep cs with
    | some (a, b) => some (c :: a, b)
    | none => if c = sep then some ([], cs) else none

/-- The source line
`name, ext = s.rsplit('.', 1) if '.' in s else (s, 'ck')`. -/
def stemExt (s : List Char) : List Char × List Char :=
  (rsplit1 '.' s).getD (s, ['c', 'k'])

/-! ## Project versioning (`src/pychuck/tui/project.py`) -/

/-- `ProjectVersion`: a versioned file in a project (`base_name`,
optional shred id, optional replace version). -/
structure ProjectVersion where
  base_name : List Char
  shred_id : Option Int
  replace_version : Option Int
deriving DecidableEq, Repr

/-- `ProjectVersion.filename`: generate the filename for the versioning
scheme (`base.ck`, `base-{shred}.ck`, `base-{shred}-{replace}.ck`). -/
def ProjectVersion.filename (v : ProjectVersion) : List Char :=
  let p := stemExt v.base_name
  match v.shred_id with
  | none => p.1 ++ '.' :: p.2
  | some s =>
    match v.replace_version with
    | none => p.1 ++ '-' :: intRepr s ++ '.' :: p.2
    | some r => p.1 ++ '-' :: intRepr s ++ '-' :: intRepr r ++ '.' :: p.2

/-- `ProjectVersion.next_replace`: successor version (replace index starts
at 1 and increments). -/
def ProjectVersion.next_replace (v : ProjectVersion) : ProjectVersion :=
  { v with replace_version := some (match v.replace_version with
      | none => 1
      | some r => r + 1) }

/-- `ProjectVersion.from_filename`: parse a filename back into a
`ProjectVersion`.  Non-numeric dash suffixes fall back to treating the
whole stem as the base name. -/
def ProjectVersion.from_filename (f : List Char) : ProjectVersion :=
  let p := stemExt f
  let parts := splitOn '-' p.1
  match parts with
  | [] => ⟨p.1 ++ '.' :: p.2, none, none⟩
  | [p0] => ⟨p0 ++ '.' :: p.2, none, none⟩
  | [p0, p1] =>
    match pyInt p1 with
    | some n => ⟨p0 ++ '.' :: p.2, some n, none⟩
    | none => ⟨p.1 ++ '.' :: p.2, none, none⟩
  | p0 :: p1 :: p2 :: _ =>
    match pyInt p1, pyInt p2 with
    | some n1, some n2 => ⟨p0 ++ '.' :: p.2, some n1, some n2⟩
    | _, _ => ⟨p.1 ++ '.' :: p.2, none, none⟩

/-! ## Python dict model (insertion-ordered association list, unique keys) -/

/-- `d[k] = v`: update in place if the key exists, else append. -/
def dictInsert {κ α : Type} [DecidableEq κ] (k : κ) (v : α) :
    List (κ × α) → List (κ × α)
  | [] => [(k, v)]
  | (k', v') :: rest =>
    if k' = k then (k, v) :: rest else (k', v') :: dictInsert k v rest

/-- `d.get(k)` / `d[k]` lookup. -/
def dictGet {κ α : Type} [DecidableEq κ] (k : κ) : List (κ × α) → Option α
  | [] => none
  | (k', v') :: rest => if k' = k then some v' else dictGet k rest

/-- `d.pop(k)` / `del d[k]`: drop the entry with key `k`. -/
def dictPop {κ α : Type} [DecidableEq κ] (k : κ) : List (κ × α) → List (κ × α)
  | [] => []
  | (k', v') :: rest => if k' = k then rest else (k', v') :: dictPop k rest

/-! ## Project store state and operations -/

/-- State of a `Project`: the `shred_versions` dict (shred id → current
`ProjectVersion`) together with the on-disk project directory contents
(filename → file text), so that "no file is written" is expressible. -/
structure ProjectState where
  shred_versions : List (Int × ProjectVersion)
  files : List (List Char × List Char)
deriving DecidableEq, Repr

/-- A fresh project: empty version dict, empty directory. -/
def ProjectState.init : ProjectState := ⟨[], []⟩

/-- `Project.save_on_spork`: store version `⟨filename, shred_id, None⟩`
for the shred id and write the content under the versioned name.  Returns
the new state and the written path (modelled by its filename). -/
def save_on_spork (st : ProjectState) (filename content : List Char)
    (shred_id : Int) : ProjectState × List Char :=
  let version : ProjectVersion := ⟨filename, some shred_id, none⟩
  let fname := version.filename
  (⟨dictInsert shred_id version st.shred_versions,
    dictInsert fname content st.files⟩, fname)

/-- Outcome of `Project.save_on_replace`: the written path, or the
`ValueError("Shred {id} not found in project")` the source raises. -/
inductive SaveResult
  | ok (path : List Char)
  | lineageNotFound (shred_id : Int)
deriving DecidableEq, Repr

/-- `Project.save_on_replace`: require an existing lineage for the id,
advance it with `next_replace`, store it and write the content.  On the
missing-lineage error the state is returned unchanged (the source raises
before any mutation). -/
def save_on_replace (st : ProjectState) (shred_id : Int) (content : List Char) :
    SaveResult × ProjectState :=
  match dictGet shred_id st.shred_versions with
  | none => (.lineageNotFound shred_id, st)
  | some current =>
    let next := current.next_replace
    (.ok next.filename,
     ⟨dictInsert shred_id next st.shred_versions,
      dictInsert next.filename content st.files⟩)

/-- `Project.save_original`: write a file without touching the version dict. -/
def save_original (st : ProjectState) (filename content : List Char) : ProjectState :=
  ⟨st.shred_versions, dictInsert filename content st.files⟩

/-- One mutating operation on a project store. -/
inductive POp
  | spork (filename content : List Char) (shred_id : Int)
  | replace (shred_id : Int) (content : List Char)
  | original (filename content : List Char)

/-- Apply one operation (`save_on_replace` keeps the pre-state on error). -/
def applyOp (st : ProjectState) : POp → ProjectState
  | .spork f c i => (save_on_spork st f c i).1
  | .replace i c => (save_on_replace st i c).2
  | .original f c => save_original st f c

/-- Run a sequence of project operations from a state. -/
def runOps (st : ProjectState) : List POp → ProjectState
  | [] => st
  | op :: ops => runOps (applyOp st op) ops

/-- Whether an operation is a `save_on_spork` for the given shred id. -/
def sporksId (i : Int) : POp → Bool
  | .spork _ _ j => j = i
  | _ => false

/-- `k` consecutive `save_on_replace` calls on the same shred id
(`contents j` is the content passed to the `j`-th call). -/
def repIter (st : ProjectState) (shred_id : Int) (contents : Nat → List Char) :
    Nat → ProjectState
  | 0 => st
  | k + 1 => (save_on_replace (repIter st shred_id contents k) shred_id (contents k)).2

/-! ## Directory listing (`Project.list_versions`) -/

/-- Python string comparison `a < b` (lexicographic by code point);
`sorted` on paths inside one directory compares their names this way. -/
def lexLt : List Char → List Char → Bool
  | [], [] => false
  | [], _ :: _ => true
  | _ :: _, [] => false
  | a :: as, b :: bs => if a = b then lexLt as bs else decide (a < b)

/-- Insert into a lexicographically sorted list (step of `sorted`). -/
def insertLex (x : List Char) : List (List Char) → List (List Char)
  | [] => [x]
  | y :: ys => if lexLt x y then x :: y :: ys else y :: insertLex x ys

/-- Model of Python `sorted` on a list of names. -/
def sortLex : List (List Char) → List (List Char)
  | [] => []
  | x :: xs => insertLex x (sortLex xs)

/-- Whether a name matches the glob pattern `*.ck`. -/
def matchesCk (s : List Char) : Bool := ['.', 'c', 'k'].isSuffixOf s

/-- `Project.list_versions`: the `*.ck` entries of the project directory,
as `sorted(...)` returns them.  The directory is modelled as a list of
(name, modification time) entries; mtimes are kept because the spec claims
the listing is ordered by them. -/
def list_versions (dir : List (List Char × Int)) : List (List Char) :=
  sortLex ((dir.map Prod.fst).filter matchesCk)

/-- Insert into a list of directory entries sorted by mtime. -/
def insertMt (x : List Char × Int) : List (List Char × Int) → List (List Char × Int)
  | [] => [x]
  | y :: ys => if x.2 < y.2 then x :: y :: ys else y :: insertMt x ys

/-- Modelled from the spec: `list_versions` as §4.3 words it, "ordered
sequence of path sorted by filesystem modification time (oldest first)"
restricted to the `*.ck` version files. -/
def listByMtimeSpec (dir : List (List Char × Int)) : List (List Char) :=
  ((dir.filter (fun e => matchesCk e.1)).foldr insertMt []).map Prod.fst

/-! ## Session registry (`cli/session.py`, `tui/session.py`) -/

/-- Outcome of one call into the audio VM collaborator: a returned value,
or a raised exception.  The native binding is not part of the sources
verified here; calls are modelled as oracle outcomes following the §6
collaborator contract. -/
inductive VMOut (α : Type)
  | ok (a : α)
  | exn (msg : List Char)
deriving DecidableEq, Repr

/-- One tracked shred: `{'source': ..., 'type': ..., 'chuck_time': ...}`.
The VM time is kept as an opaque integer (its float value never matters
for any verified property). -/
structure ShredRec where
  source : List Char
  stype : List Char
  chuck_time : Int
deriving DecidableEq, Repr

/-- `REPLSession` state: the shred dict and the audio flag. -/
structure Session where
  shreds : List (Int × ShredRec)
  audio_running : Bool
deriving DecidableEq, Repr

/-- The body shared by `REPLSession.remove_shred` and
`ChuckSession.remove_shred`: `if shred_id in self.shreds:
self.shreds.pop(shred_id)` — generic in the record type since the two
classes store different record shapes. -/
def removeShredOp {α : Type} (shred_id : Int) (d : List (Int × α)) : List (Int × α) :=
  if (dictGet shred_id d).isSome then dictPop shred_id d else d

/-- `REPLSession.add_shred`: capture the VM time (0.0 if `chuck.now()`
raises) and store the record under the id. -/
def Session.add_shred (st : Session) (shred_id : Int) (source stype : List Char)
    (nowOut : VMOut Int) : Session :=
  let t := match nowOut with | .ok v => v | .exn _ => 0
  { st with shreds := dictInsert shred_id ⟨source, stype, t⟩ st.shreds }

/-- `REPLSession.remove_shred`. -/
def Session.remove_shred (st : Session) (shred_id : Int) : Session :=
  { st with shreds := removeShredOp shred_id st.shreds }

/-! ## Command executor (`cli/commands.py`) -/

/-- Result of one `_cmd_*` handler: a normal return (`None` or an error
string), or an exception that propagated out of the handler. -/
inductive ExecResult
  | ret (err : Option (List Char))
  | raised (msg : List Char)
deriving DecidableEq, Repr

/-- `CommandExecutor._cmd_spork_file`: call `chuck.compile_file`; on
success register one record per returned id (the source registers the
absolute path; path normalization is kept as the identity here as it does
not affect any verified property).  No try/except: a raising VM call
propagates before any registration. -/
def cmd_spork_file (compileOut : VMOut (Bool × List Int)) (nowOut : VMOut Int)
    (path : List Char) (st : Session) : ExecResult × Session :=
  match compileOut with
  | .exn m => (.raised m, st)
  | .ok (success, ids) =>
    if success then
      (.ret none,
       ids.foldl (fun s sid => s.add_shred sid path ['f', 'i', 'l', 'e'] nowOut) st)
    else
      (.ret (some ("Failed to spork ".data ++ path)), st)

/-- `CommandExecutor._cmd_spork_code`. -/
def cmd_spork_code (compileOut : VMOut (Bool × List Int)) (nowOut : VMOut Int)
    (code : List Char) (st : Session) : ExecResult × Session :=
  match compileOut with
  | .exn m => (.raised m, st)
  | .ok (success, ids) =>
    if success then
      (.ret none,
       ids.foldl (fun s sid => s.add_shred sid code ['c', 'o', 'd', 'e'] nowOut) st)
    else
      (.ret (some "Failed to spork code".data), st)

/-- `CommandExecutor._cmd_remove_shred`: the VM call is inside
try/except, and its return value is ignored — after any non-raising
return the registry entry is removed. -/
def cmd_remove_shred (removeOut : VMOut Bool) (sid : Int) (st : Session) :
    ExecResult × Session :=
  match removeOut with
  | .exn m =>
    (.ret (some ("Failed to remove shred ".data ++ intRepr sid ++ ':' :: ' ' :: m)), st)
  | .ok _flag => (.ret none, st.remove_shred sid)

/-- `CommandExecutor._cmd_replace_shred`: register the new id only when
`chuck.replace_shred` returns an id `> 0`; exceptions are caught. -/
def cmd_replace_shred (replaceOut : VMOut Int) (nowOut : VMOut Int) (sid : Int)
    (code : List Char) (st : Session) : ExecResult × Session :=
  match replaceOut with
  | .exn m => (.ret (some ("Error replacing shred: ".data ++ m)), st)
  | .ok newId =>
    if 0 < newId then
      (.ret none, (st.remove_shred sid).add_shred newId code ['c', 'o', 'd', 'e'] nowOut)
    else
      (.ret (some ("Failed to replace shred ".data ++ intRepr sid)), st)

/-! ## Command parser (`tui/parser.py`)

Each regex of the source is translated token by token into the small
regex language below (literals, character classes, greedy `+` / `*` of a
class, capture groups over such tokens, with the implicit `^` of
`re.match` and the final `$`, which Python matches at the end of the
string or before one trailing newline).  The matcher performs the same
leftmost/greedy backtracking search as Python's engine on this fragment.
Character classes are the ASCII readings of `\s`, `\d`, `\w`. -/

/-- Python regex `\d` (ASCII reading). -/
def digitP (c : Char) : Bool := c.isDigit

/-- Python regex `\w` (ASCII reading). -/
def wordP (c : Char) : Bool := c.isAlphanum || c = '_'

/-- Python regex `.` (anything but a newline). -/
def anyP (c : Char) : Bool := c != '\n'

/-- Python regex `[^"]`. -/
def notDQ (c : Char) : Bool := c != '"'

/-- Python regex `[^']`. -/
def notSQ (c : Char) : Bool := c != '\''

/-- Token inside a capture group. -/
inductive GTok
  | glit (c : Char)
  | gplus (p : Char → Bool)

/-- Pattern token: literal, greedy class repetition, or a capture group. -/
inductive RTok
  | lit (c : Char)
  | plus (p : Char → Bool)
  | star (p : Char → Bool)
  | group (g : List GTok)

/-- `n, n-1, ..., 1`: the candidate lengths a greedy `+` explores. -/
def downFrom1 : Nat → List Nat
  | 0 => []
  | n + 1 => (n + 1) :: downFrom1 n

/-- First hit of `f` over a list of candidates (backtracking order). -/
def firstSome {α β : Type} (f : α → Option β) : List α → Option β
  | [] => none
  | a :: as =>
    match f a with
    | some b => some b
    | none => firstSome f as

/-- All decompositions `s = consumed ++ rest` a group body can produce, in
the order Python's backtracking explores them. -/
def gmatches : List GTok → List Char → List (List Char × List Char)
  | [], s => [([], s)]
  | .glit c :: g, s =>
    match s with
    | [] => []
    | x :: xs =>
      if x = c then (gmatches g xs).map (fun ab => (c :: ab.1, ab.2)) else []
  | .gplus p :: g, s =>
    (downFrom1 (s.takeWhile p).length).flatMap
      (fun i => (gmatches g (s.drop i)).map (fun ab => (s.take i ++ ab.1, ab.2)))

/-- Anchored match of a token sequence against a string, returning the
captured groups of the first (leftmost/greedy) match.  The implicit final
`$` accepts the end of the string or one trailing newline. -/
def matchSeq : List RTok → List Char → Option (List (List Char))
  | [], s => if s = [] ∨ s = ['\n'] then some [] else none
  | .lit c :: rs, s =>
    match s with
    | [] => none
    | x :: xs => if x = c then matchSeq rs xs else none
  | .plus p :: rs, s =>
    firstSome (fun i => matchSeq rs (s.drop i)) (downFrom1 (s.takeWhile p).length)
  | .star p :: rs, s =>
    firstSome (fun i => matchSeq rs (s.drop i)) (downFrom1 (s.takeWhile p).length ++ [0])
  | .group g :: rs, s =>
    firstSome (fun ab => (matchSeq rs ab.2).map (fun caps => ab.1 :: caps)) (gmatches g s)

/-! ### Parsed values and commands -/

/-- A scalar inside a bracketed list value. -/
inductive PyScalar
  | sint (i : Int)
  | sfloat (text : List Char)
  | sstr (s : List Char)
deriving DecidableEq, Repr

/-- A parsed command-argument value.  Floats keep their source text: no
verified property depends on float values. -/
inductive PyVal
  | vint (i : Int)
  | vfloat (text : List Char)
  | vstr (s : List Char)
  | vlist (xs : List PyScalar)
deriving DecidableEq, Repr

/-- A parsed `Command` (kind plus argument dict). -/
structure Command where
  ctype : String
  args : List (String × PyVal)
deriving DecidableEq, Repr

/-- Exponent part of a float literal: empty, or `e`/`E`, optional sign,
digits. -/
def expOk : List Char → Bool
  | [] => true
  | 'e' :: r =>
    (match r with
     | '+' :: r2 => !r2.isEmpty && r2.all Char.isDigit
     | '-' :: r2 => !r2.isEmpty && r2.all Char.isDigit
     | r2 => !r2.isEmpty && r2.all Char.isDigit)
  | 'E' :: r =>
    (match r with
     | '+' :: r2 => !r2.isEmpty && r2.all Char.isDigit
     | '-' :: r2 => !r2.isEmpty && r2.all Char.isDigit
     | r2 => !r2.isEmpty && r2.all Char.isDigit)
  | _ => false

/-- Model of `float(s)` succeeding on an already-stripped string (ASCII
float grammar: optional sign, digits with optional point, optional
exponent; `inf`/`nan` words and underscores are not modelled — no
verified property depends on them). -/
def pyFloatOk (s : List Char) : Bool :=
  let core := fun (t : List Char) =>
    let d1 := t.takeWhile Char.isDigit
    match t.drop d1.length with
    | '.' :: r2 =>
      let d2 := r2.takeWhile Char.isDigit
      (!d1.isEmpty || !d2.isEmpty) && expOk (r2.drop d2.length)
    | r1 => !d1.isEmpty && expOk r1
  match s with
  | '+' :: r => core r
  | '-' :: r => core r
  | r => core r

/-- One scalar literal at the head of the input (used by the
`ast.literal_eval` model): a quoted string without escapes, or an
int/float literal token. -/
def parseScalar (s : List Char) : Option (PyScalar × List Char) :=
  match s with
  | '"' :: r =>
    let str := r.takeWhile (fun c => c != '"')
    (match r.drop str.length with
     | '"' :: rest => some (.sstr str, rest)
     | _ => none)
  | '\'' :: r =>
    let str := r.takeWhile (fun c => c != '\'')
    (match r.drop str.length with
     | '\'' :: rest => some (.sstr str, rest)
     | _ => none)
  | _ =>
    let t := s.takeWhile (fun c => !(c = ',' || c = ']' || pyWs c))
    if t.isEmpty then none
    else
      match pyInt t with
      | some n => some (.sint n, s.drop t.length)
      | none =>
        if pyFloatOk t then some (.sfloat t, s.drop t.length) else none

/-- Comma-separated scalars (with an optional trailing comma), fuelled by
the input length. -/
def parseItems : Nat → List Char → Option (List PyScalar × List Char)
  | 0, _ => none
  | fuel + 1, s =>
    match parseScalar (s.dropWhile pyWs) with
    | none => none
    | some (v, rest) =>
      match rest.dropWhile pyWs with
      | ',' :: r2 =>
        (match r2.dropWhile pyWs with
         | ']' :: r3 => some ([v], ']' :: r3)
         | r2w => (parseItems fuel r2w).map (fun vr => (v :: vr.1, vr.2)))
      | r => some ([v], r)

/-- Model of `ast.literal_eval` at its single call site (the input starts
with `[` and ends with `]`): a flat bracketed list of int/float/string
literals.  Anything else — including the Python literal forms this model
does not cover — is the raised `ValueError`. -/
def literalListEv (s : List Char) : Except String PyVal :=
  match s with
  | '[' :: r =>
    (match r.dropWhile pyWs with
     | ']' :: r2 =>
       if (r2.dropWhile pyWs).isEmpty then .ok (.vlist []) else .error "malformed node or string"
     | r1 =>
       match parseItems (r1.length + 1) r1 with
       | some (vs, ']' :: r2) =>
         if (r2.dropWhile pyWs).isEmpty then .ok (.vlist vs) else .error "malformed node or string"
       | _ => .error "malformed node or string")
  | _ => .error "malformed node or string"

/-- `CommandParser._parse_value`: strip, then bracketed list via
`ast.literal_eval` (which may raise — the `.error` case), double-quoted
string, float if the text contains a dot, else int, else the raw string.
The `try`/`except ValueError` around the numeric branch is modelled by the
option-valued `pyInt` / `pyFloatOk`. -/
def parse_value (s0 : List Char) : Except String PyVal :=
  let s := pyStrip s0
  if s.head? = some '[' ∧ s.getLast? = some ']' then
    literalListEv s
  else if s.head? = some '"' ∧ s.getLast? = some '"' then
    .ok (.vstr ((s.drop 1).dropLast))
  else if '.' ∈ s then
    .ok (if pyFloatOk s then .vfloat s else .vstr s)
  else
    .ok (match pyInt s with | some n => .vint n | none => .vstr s)

/-- `int(m.group(i))` in a handler: the ValueError would propagate. -/
def pyIntE (s : List Char) : Except String Int :=
  match pyInt s with
  | some n => .ok n
  | none => .error "invalid literal for int"

/-- A pattern handler: from the captured groups to a `Command` (or a
propagating exception). -/
def Handler : Type := List (List Char) → Except String Command

def sporkFileH : Handler := fun caps =>
  .ok ⟨"spork_file", [("path", .vstr (caps.getD 0 []))]⟩

def sporkCodeH : Handler := fun caps =>
  .ok ⟨"spork_code", [("code", .vstr (caps.getD 0 []))]⟩

def removeAllH : Handler := fun _ => .ok ⟨"remove_all", []⟩

def removeShredH : Handler := fun caps =>
  (pyIntE (caps.getD 0 [])).map (fun n => ⟨"remove_shred", [("id", .vint n)]⟩)

def replaceShredH : Handler := fun caps =>
  (pyIntE (caps.getD 0 [])).map
    (fun n => ⟨"replace_shred", [("id", .vint n), ("code", .vstr (caps.getD 1 []))]⟩)

def replaceShredFileH : Handler := fun caps =>
  (pyIntE (caps.getD 0 [])).map
    (fun n => ⟨"replace_shred_file", [("id", .vint n), ("path", .vstr (caps.getD 1 []))]⟩)

def statusH : Handler := fun _ => .ok ⟨"status", []⟩

def listShredsH : Handler := fun _ => .ok ⟨"list_shreds", []⟩

def shredInfoH : Handler := fun caps =>
  (pyIntE (caps.getD 0 [])).map (fun n => ⟨"shred_info", [("id", .vint n)]⟩)

def listGlobalsH : Handler := fun _ => .ok ⟨"list_globals", []⟩

def audioInfoH : Handler := fun _ => .ok ⟨"audio_info", []⟩

def currentTimeH : Handler := fun _ => .ok ⟨"current_time", []⟩

def setGlobalH : Handler := fun caps =>
  (parse_value (caps.getD 1 [])).map
    (fun v => ⟨"set_global", [("name", .vstr (caps.getD 0 [])), ("value", v)]⟩)

def getGlobalH : Handler := fun caps =>
  .ok ⟨"get_global", [("name", .vstr (caps.getD 0 []))]⟩

def broadcastEventH : Handler := fun caps =>
  .ok ⟨"broadcast_event", [("name", .vstr (caps.getD 0 []))]⟩

def signalEventH : Handler := fun caps =>
  .ok ⟨"signal_event", [("name", .vstr (caps.getD 0 []))]⟩

def startAudioH : Handler := fun _ => .ok ⟨"start_audio", []⟩

def stopAudioH : Handler := fun _ => .ok ⟨"stop_audio", []⟩

def shutdownAudioH : Handler := fun _ => .ok ⟨"shutdown_audio", []⟩

def clearVmH : Handler := fun _ => .ok ⟨"clear_vm", []⟩

def resetIdH : Handler := fun _ => .ok ⟨"reset_id", []⟩

def clearScreenH : Handler := fun _ => .ok ⟨"clear_screen", []⟩

def compileFileH : Handler := fun caps =>
  .ok ⟨"compile_file", [("path", .vstr (caps.getD 0 []))]⟩

def execCodeH : Handler := fun caps =>
  .ok ⟨"exec_code", [("code", .vstr (caps.getD 0 []))]⟩

def shellH : Handler := fun caps =>
  .ok ⟨"shell", [("cmd", .vstr (caps.getD 0 []))]⟩

def editShredH : Handler := fun caps =>
  (pyIntE (caps.getD 0 [])).map (fun n => ⟨"edit_shred", [("id", .vint n)]⟩)

def openEditorH : Handler := fun _ => .ok ⟨"open_editor", []⟩

def watchH : Handler := fun _ => .ok ⟨"watch", []⟩

def loadSnippetH : Handler := fun caps =>
  .ok ⟨"load_snippet", [("name", .vstr (caps.getD 0 []))]⟩

/-- `(.+\.ck)` as a group body. -/
def grpCk : List GTok := [.gplus anyP, .glit '.', .glit 'c', .glit 'k']

/-- A run of literal tokens for a keyword. -/
def lits (s : String) : List RTok := s.data.map .lit

/-- `^(\w+)::(.+)$` (the set-global rule; singled out because it is the
one whose handler can raise). -/
def patSetGlobal : List RTok :=
  [.group [.gplus wordP], .lit ':', .lit ':', .group [.gplus anyP]]

/-- The pattern table of `CommandParser.__init__`, in source order. -/
def patterns : List (List RTok × Handler) :=
  [ (lits "add" ++ [.plus pyWs, .group grpCk], sporkFileH),
    (lits "remove" ++ [.plus pyWs] ++ lits "all", removeAllH),
    (lits "remove" ++ [.plus pyWs, .group [.gplus digitP]], removeShredH),
    (lits "replace" ++ [.plus pyWs, .group [.gplus digitP], .plus pyWs, .group grpCk],
      replaceShredFileH),
    (lits "status", statusH),
    (lits "time", currentTimeH),
    ([.lit '+', .plus pyWs, .group grpCk], sporkFileH),
    ([.lit '+', .plus pyWs, .lit '"', .group [.gplus notDQ], .lit '"'], sporkCodeH),
    ([.lit '+', .plus pyWs, .lit '\'', .group [.gplus notSQ], .lit '\''], sporkCodeH),
    ([.lit '-', .plus pyWs] ++ lits "all", removeAllH),
    ([.lit '-', .star pyWs, .group [.gplus digitP]], removeShredH),
    ([.lit '~', .plus pyWs, .group [.gplus digitP], .plus pyWs,
      .lit '"', .group [.gplus notDQ], .lit '"'], replaceShredH),
    ([.lit '?'], listShredsH),
    ([.lit '?', .plus pyWs, .group [.gplus digitP]], shredInfoH),
    ([.lit '?', .lit 'g'], listGlobalsH),
    ([.lit '?', .lit 'a'], audioInfoH),
    ([.lit '.'], currentTimeH),
    (patSetGlobal, setGlobalH),
    ([.group [.gplus wordP], .lit '?'], getGlobalH),
    ([.group [.gplus wordP], .lit '!', .lit '!'], broadcastEventH),
    ([.group [.gplus wordP], .lit '!'], signalEventH),
    ([.lit '>'], startAudioH),
    ([.lit '|', .lit '|'], stopAudioH),
    ([.lit 'X'], shutdownAudioH),
    (lits "clear", clearVmH),
    (lits "reset", resetIdH),
    (lits "cls", clearScreenH),
    ([.lit ':', .plus pyWs, .group grpCk], compileFileH),
    ([.lit '!', .plus pyWs, .lit '"', .group [.gplus notDQ], .lit '"'], execCodeH),
    ([.lit '$', .plus pyWs, .group [.gplus anyP]], shellH),
    (lits "edit" ++ [.star pyWs, .group [.gplus digitP]], editShredH),
    (lits "edit", openEditorH),
    (lits "watch", watchH),
    ([.lit '@', .group [.gplus wordP]], loadSnippetH) ]

/-- Try the rules in order; first match wins; an unmatched line is
`ok none` ("no match", handed back to the caller). -/
def tryRules : List (List RTok × Handler) → List Char → Except String (Option Command)
  | [], _ => .ok none
  | (pat, h) :: rest, s =>
    match matchSeq pat s with
    | some caps => (h caps).map some
    | none => tryRules rest s

/-- `CommandParser.parse`. -/
def parse (s : List Char) : Except String (Option Command) := tryRules patterns s

/-! ## Declarative match relations (for soundness arguments) -/

/-- A group body consuming exactly a chunk of characters. -/
inductive GM : List GTok → List Char → Prop
  | nil : GM [] []
  | lit {g cs c} : GM g cs → GM (.glit c :: g) (c :: cs)
  | plus {g cs p} (chunk : List Char) (hne : chunk ≠ [])
      (hall : ∀ c ∈ chunk, p c = true) :
      GM g cs → GM (.gplus p :: g) (chunk ++ cs)

/-- A token sequence consuming exactly a string, producing captures. -/
inductive SeqM : List RTok → List Char → List (List Char) → Prop
  | nil : SeqM [] [] []
  | lit {rs cs caps c} : SeqM rs cs caps → SeqM (.lit c :: rs) (c :: cs) caps
  | plus {rs cs caps p} (chunk : List Char) (hne : chunk ≠ [])
      (hall : ∀ c ∈ chunk, p c = true) :
      SeqM rs cs caps → SeqM (.plus p :: rs) (chunk ++ cs) caps
  | star {rs cs caps p} (chunk : List Char)
      (hall : ∀ c ∈ chunk, p c = true) :
      SeqM rs cs caps → SeqM (.star p :: rs) (chunk ++ cs) caps
  | group {rs cs caps g a} (hg : GM g a) :
      SeqM rs cs caps → SeqM (.group g :: rs) (a ++ cs) (a :: caps)

/-! # Theorems -/

/-! ## Dict lemmas -/

theorem dictGet_dictInsert_self {κ α : Type} [DecidableEq κ] (k : κ) (v : α)
    (d : List (κ × α)) : dictGet k (dictInsert k v d) = some v := by
  induction d with
  | nil => simp [dictInsert, dictGet]
  | cons e rest ih =>
    by_cases h : e.1 = k
    · simp only [dictInsert, h, if_pos rfl]
      simp [dictGet]
    · simp only [dictInsert, if_neg h]
      simp only [dictGet, if_neg h]
      exact ih

theorem dictGet_dictInsert_ne {κ α : Type} [DecidableEq κ] {k k' : κ} (v : α)
    (d : List (κ × α)) (h : k' ≠ k) :
    dictGet k (dictInsert k' v d) = dictGet k d := by
  induction d with
  | nil => simp [dictInsert, dictGet, h]
  | cons e rest ih =>
    by_cases he : e.1 = k'
    · simp only [dictInsert, if_pos he, dictGet, if_neg h, he]
    · simp only [dictInsert, if_neg he, dictGet]
      by_cases hk : e.1 = k
      · rw [if_pos hk, if_pos hk]
      · rw [if_neg hk, if_neg hk, ih]

theorem dictGet_none_of_not_mem_keys {α : Type} {d : List (Int × α)} {k : Int}
    (h : k ∉ d.map Prod.fst) : dictGet k d = none := by
  induction d with
  | nil => rfl
  | cons e rest ih =>
    simp only [List.map_cons, List.mem_cons] at h
    push_neg at h
    have hek : ¬ e.1 = k := fun hx => h.1 hx.symm
    simp [dictGet, hek, ih h.2]

theorem mem_keys_of_dictGet_isSome {α : Type} {d : List (Int × α)} {k : Int}
    (h : (dictGet k d).isSome) : k ∈ d.map Prod.fst := by
  by_contra hmem
  rw [dictGet_none_of_not_mem_keys hmem] at h
  simp at h

theorem dictGet_isSome_of_mem_keys {α : Type} {d : List (Int × α)} {k : Int}
    (h : k ∈ d.map Prod.fst) : (dictGet k d).isSome := by
  induction d with
  | nil => simp at h
  | cons e rest ih =>
    simp only [List.map_cons, List.mem_cons] at h
    by_cases hek : e.1 = k
    · simp [dictGet, hek]
    · rcases h with h | h
      · exact absurd h.symm hek
      · simp [dictGet, hek, ih h]

theorem dictPop_eq_filter {α : Type} {d : List (Int × α)} (k : Int)
    (h : (d.map Prod.fst).Nodup) :
    dictPop k d = d.filter (fun e => !decide (e.1 = k)) := by
  induction d with
  | nil => rfl
  | cons e rest ih =>
    simp only [List.map_cons, List.nodup_cons] at h
    by_cases he : e.1 = k
    · have hall : ∀ x ∈ rest, (!decide (x.1 = k)) = true := by
        intro x hx
        have hmem : x.1 ∈ rest.map Prod.fst := List.mem_map_of_mem _ hx
        simp only [Bool.not_eq_true', decide_eq_false_iff_not]
        intro hxk
        exact h.1 (he ▸ hxk ▸ hmem)
      have hfil : List.filter (fun e => !decide (e.1 = k)) rest = rest :=
        List.filter_eq_self.2 hall
      simp [dictPop, List.filter_cons, he, hfil]
    · simp [dictPop, List.filter_cons, he, ih h.2]

theorem dictGet_filter_ne_self {α : Type} (d : List (Int × α)) (k : Int) :
    dictGet k (d.filter (fun e => !decide (e.1 = k))) = none := by
  apply dictGet_none_of_not_mem_keys
  intro hmem
  rcases List.mem_map.1 hmem with ⟨e, he, hek⟩
  rcases List.mem_filter.1 he with ⟨_, hne⟩
  simp at hne
  exact hne hek

theorem dictGet_dictPop_ne {α : Type} (d : List (Int × α)) {j k : Int} (h : j ≠ k) :
    dictGet j (dictPop k d) = dictGet j d := by
  induction d with
  | nil => rfl
  | cons e rest ih =>
    by_cases he : e.1 = k
    · have hj : ¬ e.1 = j := fun hx => h (hx ▸ he ▸ rfl)
      simp [dictPop, dictGet, he, hj, Ne.symm h, ih]
    · by_cases hj : e.1 = j <;> simp [dictPop, dictGet, he, hj, h, ih]

/-! ## C10: remove_shred is total, a no-op on untracked ids, and removes
exactly the tracked entry -/

/-- C10: `remove_shred` (same body in `REPLSession` and `ChuckSession`,
generic in the stored record type) never fails: on an untracked id the
shred dict is returned unchanged, and on a tracked id (dict keys are
unique in Python) exactly the entry of that id is dropped — the result is
the dict restricted to the other keys, so every other record is unchanged
in place. -/
theorem C10_remove_shred_frame {α : Type} (d : List (Int × α)) (shred_id : Int) :
    (dictGet shred_id d = none → removeShredOp shred_id d = d) ∧
    ((d.map Prod.fst).Nodup →
      removeShredOp shred_id d = d.filter (fun e => !decide (e.1 = shred_id)) ∧
      dictGet shred_id (removeShredOp shred_id d) = none ∧
      ∀ j, j ≠ shred_id → dictGet j (removeShredOp shred_id d) = dictGet j d) := by
  constructor
  · intro h
    simp [removeShredOp, h]
  · intro hnd
    by_cases h : (dictGet shred_id d).isSome
    · have hpop : removeShredOp shred_id d = dictPop shred_id d := by
        simp [removeShredOp, h]
      refine ⟨hpop ▸ dictPop_eq_filter shred_id hnd, ?_, ?_⟩
      · rw [hpop, dictPop_eq_filter shred_id hnd]
        exact dictGet_filter_ne_self d shred_id
      · intro j hj
        rw [hpop]
        exact dictGet_dictPop_ne d hj
    · have hnone : dictGet shred_id d = none := by
        rcases hg : dictGet shred_id d with _ | v
        · rfl
        · simp [hg] at h
      have hid : removeShredOp shred_id d = d := by simp [removeShredOp, hnone]
      have hfil : d.filter (fun e => !decide (e.1 = shred_id)) = d := by
        apply List.filter_eq_self.2
        intro e he
        simp only [Bool.not_eq_true', decide_eq_false_iff_not]
        intro hek
        have hmem : shred_id ∈ d.map Prod.fst := hek ▸ List.mem_map_of_mem _ he
        have := dictGet_isSome_of_mem_keys hmem
        rw [hnone] at this
        simp at this
      rw [hid, hfil]
      exact ⟨rfl, hnone, fun j _ => rfl⟩

/-- Witness for C10 at a concrete dict. -/
theorem C10_remove_shred_frame_witness :
    removeShredOp 5 ([(5, 0), (7, 1)] : List (Int × Int)) = [(7, 1)] ∧
    removeShredOp 9 ([(5, 0), (7, 1)] : List (Int × Int)) = [(5, 0), (7, 1)] := by
  constructor
  · have h := (C10_remove_shred_frame ([(5, 0), (7, 1)] : List (Int × Int)) 5).2 (by decide)
    rw [h.1]
    decide
  · exact (C10_remove_shred_frame ([(5, 0), (7, 1)] : List (Int × Int)) 9).1 (by decide)

/-! ## C3: executor commands against VM failure -/

/-- C3 counterexample: the claim is false for the remove command — the
source ignores the return value of `chuck.remove_shred`, so a VM remove
that signals failure by returning (here `false`, per the §6 collaborator
contract `remove(id) → success`) still deletes the registry entry. -/
theorem C3_counterexample :
    (cmd_remove_shred (.ok false) 5
        ⟨[(5, ⟨"a.ck".data, "file".data, 0⟩)], false⟩).2 ≠
      (⟨[(5, ⟨"a.ck".data, "file".data, 0⟩)], false⟩ : Session) := by
  decide

/-- C3 (amended): for spork-file, spork-code and replace, every VM-call
failure — raised or signalled by return value — leaves the session
exactly as it was; for remove, the session is left unchanged when the VM
call raises (a failure signalled by return value is ignored by the
source, see the counterexample). -/
theorem C3_executor_failure_atomicity (st : Session) (nowOut : VMOut Int)
    (path code m : List Char) (sid : Int) (ids : List Int) (k : Nat) :
    cmd_spork_file (.exn m) nowOut path st = (.raised m, st) ∧
    cmd_spork_file (.ok (false, ids)) nowOut path st
      = (.ret (some ("Failed to spork ".data ++ path)), st) ∧
    cmd_spork_code (.exn m) nowOut code st = (.raised m, st) ∧
    cmd_spork_code (.ok (false, ids)) nowOut code st
      = (.ret (some "Failed to spork code".data), st) ∧
    cmd_replace_shred (.exn m) nowOut sid code st
      = (.ret (some ("Error replacing shred: ".data ++ m)), st) ∧
    cmd_replace_shred (.ok (-(k : Int))) nowOut sid code st
      = (.ret (some ("Failed to replace shred ".data ++ intRepr sid)), st) ∧
    cmd_remove_shred (.exn m) sid st
      = (.ret (some ("Failed to remove shred ".data ++ intRepr sid ++ ':' :: ' ' :: m)), st) := by
  refine ⟨rfl, by simp [cmd_spork_file], rfl, by simp [cmd_spork_code], rfl, ?_, rfl⟩
  have hk : ¬ (0 : Int) < -(k : Int) := by omega
  simp [cmd_replace_shred, hk]

/-! ## C5: save_on_replace on an unknown lineage -/

/-- On states reachable without sporking `i`, the lineage dict has no
entry for `i` (replace only updates existing keys). -/
theorem runOps_no_spork_no_lineage (i : Int) :
    ∀ (ops : List POp) (st : ProjectState),
      dictGet i st.shred_versions = none →
      (∀ op ∈ ops, sporksId i op = false) →
      dictGet i (runOps st ops).shred_versions = none := by
  intro ops
  induction ops with
  | nil => intro st h _; exact h
  | cons op rest ih =>
    intro st h hops
    have hop := hops op (List.mem_cons_self _ _)
    have hrest := fun o ho => hops o (List.mem_cons_of_mem _ ho)
    refine ih (applyOp st op) ?_ hrest
    cases op with
    | spork f c j =>
      have hji : ¬ j = i := by simpa [sporksId] using hop
      simpa [applyOp, save_on_spork] using (dictGet_dictInsert_ne _ _ hji).trans h
    | replace j c =>
      rcases hg : dictGet j st.shred_versions with _ | cur
      · simpa [applyOp, save_on_replace, hg] using h
      · have hji : ¬ j = i := by
          intro hj
          rw [hj, h] at hg
          exact Option.noConfusion hg
        simpa [applyOp, save_on_replace, hg]
          using (dictGet_dictInsert_ne _ _ hji).trans h
    | original f c => simpa [applyOp, save_original] using h

/-- C5: on a project where the shred id was never passed to
`save_on_spork` (any operation history without such a spork), calling
`save_on_replace` with that id yields the lineage-not-found error and
leaves the whole state — version dict and written files — unchanged. -/
theorem C5_unknown_lineage_rejected (ops : List POp) (shred_id : Int)
    (content : List Char) (h : ∀ op ∈ ops, sporksId shred_id op = false) :
    save_on_replace (runOps ProjectState.init ops) shred_id content
      = (.lineageNotFound shred_id, runOps ProjectState.init ops) := by
  have hnone : dictGet shred_id (runOps ProjectState.init ops).shred_versions = none :=
    runOps_no_spork_no_lineage shred_id ops ProjectState.init (by rfl) h
  simp [save_on_replace, hnone]

/-- Witness for C5: the §8 scenario — spork shred 7, then replace shred 8. -/
theorem C5_unknown_lineage_rejected_witness :
    save_on_replace
        (runOps ProjectState.init [.spork "loop.ck".data "code-A".data 7])
        8 "code-D".data
      = (.lineageNotFound 8,
         runOps ProjectState.init [.spork "loop.ck".data "code-A".data 7]) :=
  C5_unknown_lineage_rejected [.spork "loop.ck".data "code-A".data 7] 8
    "code-D".data (by decide)

/-! ## C9: re-spork resets the lineage -/

/-- C9: `save_on_spork` on an id that may already have a lineage (the
state is arbitrary) silently overwrites it with a version whose replace
index is `None`, so the next `save_on_replace` on that id returns the
path of index 1 — regardless of how many replaces were recorded before. -/
theorem C9_spork_resets_lineage (st : ProjectState) (f c : List Char)
    (shred_id : Int) (c' : List Char) :
    dictGet shred_id ((save_on_spork st f c shred_id).1).shred_versions
      = some ⟨f, some shred_id, none⟩ ∧
    (save_on_replace (save_on_spork st f c shred_id).1 shred_id c').1
      = .ok (ProjectVersion.filename ⟨f, some shred_id, some 1⟩) := by
  have hget : dictGet shred_id ((save_on_spork st f c shred_id).1).shred_versions
      = some ⟨f, some shred_id, none⟩ := by
    simp [save_on_spork]
    exact dictGet_dictInsert_self _ _ _
  refine ⟨hget, ?_⟩
  simp [save_on_replace, hget, ProjectVersion.next_replace]

/-! ## C4: replace indices increase 1, 2, 3, ... -/

/-- After `save_on_spork` and `k` replaces on the same id, the stored
lineage version has base `f`, shred id `shred_id`, and replace index `k`
(`None` for `k = 0`). -/
theorem repIter_lookup (st : ProjectState) (f c : List Char) (shred_id : Int)
    (contents : Nat → List Char) :
    ∀ k : Nat,
      dictGet shred_id
          (repIter (save_on_spork st f c shred_id).1 shred_id contents k).shred_versions
        = some ⟨f, some shred_id, if k = 0 then none else some (k : Int)⟩ := by
  intro k
  induction k with
  | zero =>
    simpa [repIter, save_on_spork] using
      dictGet_dictInsert_self shred_id
        (⟨f, some shred_id, none⟩ : ProjectVersion) st.shred_versions
  | succ k ih =>
    simp only [repIter, save_on_replace, ih]
    cases k with
    | zero =>
      simp [ProjectVersion.next_replace]
      exact dictGet_dictInsert_self _ _ _
    | succ j =>
      simp [ProjectVersion.next_replace]
      exact dictGet_dictInsert_self _ _ _

/-- C4: starting from a lineage first registered by `save_on_spork`
(replace index `None`), the `k`-th subsequent `save_on_replace` on that
id (counting from 1) succeeds and returns the path whose filename carries
replace index exactly `k` — consecutive calls yield 1, 2, 3, .... -/
theorem C4_replace_indices_monotone (st : ProjectState) (f c : List Char)
    (shred_id : Int) (contents : Nat → List Char) (k : Nat) :
    (save_on_replace (repIter (save_on_spork st f c shred_id).1 shred_id contents k)
        shred_id (contents k)).1
      = .ok ((stemExt f).1 ++ '-' :: intRepr shred_id ++
              '-' :: intRepr ((k : Int) + 1) ++ '.' :: (stemExt f).2) := by
  have hl := repIter_lookup st f c shred_id contents k
  simp only [save_on_replace, hl]
  cases k with
  | zero => simp [ProjectVersion.next_replace, ProjectVersion.filename]
  | succ j =>
    simp [ProjectVersion.next_replace, ProjectVersion.filename]

/-! ## C7: list_versions ordering -/

theorem lexLt_trans : ∀ a b c : List Char,
    lexLt a b = true → lexLt b c = true → lexLt a c = true := by
  intro a
  induction a with
  | nil =>
    intro b c hab hbc
    cases b with
    | nil => simp [lexLt] at hab
    | cons y ys =>
      cases c with
      | nil => simp [lexLt] at hbc
      | cons z zs => simp [lexLt]
  | cons x xs ih =>
    intro b c hab hbc
    cases b with
    | nil => simp [lexLt] at hab
    | cons y ys =>
      cases c with
      | nil => simp [lexLt] at hbc
      | cons z zs =>
        simp only [lexLt] at hab hbc ⊢
        by_cases hxy : x = y
        · subst hxy
          rw [if_pos rfl] at hab
          by_cases hyz : x = z
          · subst hyz
            rw [if_pos rfl] at hbc
            rw [if_pos rfl]
            exact ih ys zs hab hbc
          · rw [if_neg hyz] at hbc
            rw [if_neg hyz]
            exact hbc
        · rw [if_neg hxy] at hab
          have hxy' : x < y := by simpa using hab
          by_cases hyz : y = z
          · have hxz : ¬ x = z := fun h => hxy (h.trans hyz.symm)
            rw [if_neg hxz]
            have hlt : x < z := hyz ▸ hxy'
            simpa using hlt
          · rw [if_neg hyz] at hbc
            have hyz' : y < z := by simpa using hbc
            have hxz' : x < z := lt_trans hxy' hyz'
            have hxz : ¬ x = z := ne_of_lt hxz'
            rw [if_neg hxz]
            simpa using hxz'

theorem lexLt_asymm : ∀ a b : List Char, lexLt a b = true → lexLt b a = false := by
  intro a
  induction a with
  | nil =>
    intro b hab
    cases b with
    | nil => simp [lexLt] at hab
    | cons y ys => simp [lexLt]
  | cons x xs ih =>
    intro b hab
    cases b with
    | nil => simp [lexLt] at hab
    | cons y ys =>
      simp only [lexLt] at hab ⊢
      by_cases hxy : x = y
      · subst hxy
        rw [if_pos rfl] at hab
        rw [if_pos rfl]
        exact ih ys hab
      · rw [if_neg hxy] at hab
        have hxy' : x < y := by simpa using hab
        rw [if_neg (fun h : y = x => hxy h.symm)]
        simpa using not_lt_of_gt hxy'

theorem lexLt_total : ∀ a b : List Char,
    lexLt a b = true ∨ a = b ∨ lexLt b a = true := by
  intro a
  induction a with
  | nil =>
    intro b
    cases b with
    | nil => exact Or.inr (Or.inl rfl)
    | cons y ys => exact Or.inl (by simp [lexLt])
  | cons x xs ih =>
    intro b
    cases b with
    | nil => exact Or.inr (Or.inr (by simp [lexLt]))
    | cons y ys =>
      rcases lt_trichotomy x y with hxy | hxy | hxy
      · exact Or.inl (by simp [lexLt, ne_of_lt hxy, hxy])
      · subst hxy
        rcases ih ys with h | h | h
        · exact Or.inl (by simp [lexLt, h])
        · exact Or.inr (Or.inl (by rw [h]))
        · exact Or.inr (Or.inr (by simp [lexLt, h]))
      · exact Or.inr (Or.inr (by simp [lexLt, ne_of_lt hxy, hxy]))

theorem lexLt_le_trans {a b c : List Char}
    (h1 : lexLt b a = false) (h2 : lexLt c b = false) : lexLt c a = false := by
  by_contra h
  rw [Bool.not_eq_false] at h
  rcases lexLt_total b c with hbc | hbc | hbc
  · rw [lexLt_trans b c a hbc h] at h1
    exact Bool.noConfusion h1
  · rw [hbc, h] at h1
    exact Bool.noConfusion h1
  · rw [hbc] at h2
    exact Bool.noConfusion h2

theorem insertLex_perm (x : List Char) :
    ∀ l : List (List Char), (insertLex x l).Perm (x :: l) := by
  intro l
  induction l with
  | nil => simp [insertLex]
  | cons y ys ih =>
    by_cases h : lexLt x y
    · simp [insertLex, h]
    · simp only [insertLex, h, Bool.false_eq_true, if_false]
      exact (ih.cons y).trans (List.Perm.swap x y ys)

theorem sortLex_perm : ∀ l : List (List Char), (sortLex l).Perm l := by
  intro l
  induction l with
  | nil => simp [sortLex]
  | cons x xs ih => exact (insertLex_perm x (sortLex xs)).trans (ih.cons x)

theorem insertLex_pairwise (x : List Char) :
    ∀ l : List (List Char),
      l.Pairwise (fun a b => lexLt b a = false) →
      (insertLex x l).Pairwise (fun a b => lexLt b a = false) := by
  intro l
  induction l with
  | nil => intro _; simp [insertLex]
  | cons y ys ih =>
    intro h
    rw [List.pairwise_cons] at h
    by_cases hxy : lexLt x y
    · simp only [insertLex, hxy, if_true]
      rw [List.pairwise_cons]
      refine ⟨?_, List.pairwise_cons.2 h⟩
      intro z hz
      rcases List.mem_cons.1 hz with hzy | hz
      · rw [hzy]
        exact lexLt_asymm x y hxy
      · exact lexLt_le_trans (lexLt_asymm x y hxy) (h.1 z hz)
    · simp only [insertLex, hxy, Bool.false_eq_true, if_false]
      rw [List.pairwise_cons]
      refine ⟨?_, ih h.2⟩
      intro z hz
      rcases List.mem_cons.1 ((insertLex_perm x ys).mem_iff.1 hz) with hzx | hz
      · rw [hzx]
        simpa using hxy
      · exact h.1 z hz

theorem sortLex_pairwise : ∀ l : List (List Char),
    (sortLex l).Pairwise (fun a b => lexLt b a = false) := by
  intro l
  induction l with
  | nil => simp [sortLex]
  | cons x xs ih => exact insertLex_pairwise x (sortLex xs) ih

/-- C7 counterexample: on a directory where name order and mtime order
disagree (`b.ck` older than `a.ck`), `list_versions` does not return the
files ordered by modification time (the source sorts the glob results by
path name; only `get_timeline` orders by mtime). -/
theorem C7_counterexample :
    list_versions [("b.ck".data, 1), ("a.ck".data, 2)]
      ≠ listByMtimeSpec [("b.ck".data, 1), ("a.ck".data, 2)] := by
  decide

/-- C7 (amended): for every state of the project directory,
`list_versions` returns exactly the `*.ck` entries, sorted
lexicographically by file name (ascending), not by modification time. -/
theorem C7_list_versions_sorted_by_name (dir : List (List Char × Int)) :
    (list_versions dir).Perm ((dir.map Prod.fst).filter matchesCk) ∧
    (list_versions dir).Pairwise (fun a b => lexLt b a = false) :=
  ⟨sortLex_perm _, sortLex_pairwise _⟩

/-! ## String lemmas for the versioning scheme -/

theorem splitOn_not_mem {sep : Char} : ∀ {a : List Char}, sep ∉ a →
    splitOn sep a = [a] := by
  intro a
  induction a with
  | nil => intro _; rfl
  | cons c cs ih =>
    intro h
    have hc : ¬ c = sep := fun hce => h (by rw [hce]; exact List.mem_cons_self _ _)
    have hcs : sep ∉ cs := fun hm => h (List.mem_cons_of_mem _ hm)
    simp only [splitOn, if_neg hc, ih hcs]

theorem splitOn_append {sep : Char} : ∀ (a b : List Char), sep ∉ a →
    splitOn sep (a ++ sep :: b) = a :: splitOn sep b := by
  intro a
  induction a with
  | nil =>
    intro b _
    simp [splitOn]
  | cons c cs ih =>
    intro b h
    have hc : ¬ c = sep := fun hce => h (by rw [hce]; exact List.mem_cons_self _ _)
    have hcs : sep ∉ cs := fun hm => h (List.mem_cons_of_mem _ hm)
    simp only [List.cons_append, splitOn, if_neg hc, List.append_eq, ih b hcs]

theorem rsplit1_eq_none {sep : Char} : ∀ {s : List Char}, sep ∉ s →
    rsplit1 sep s = none := by
  intro s
  induction s with
  | nil => intro _; rfl
  | cons c cs ih =>
    intro h
    have hc : ¬ c = sep := fun hce => h (by rw [hce]; exact List.mem_cons_self _ _)
    have hcs : sep ∉ cs := fun hm => h (List.mem_cons_of_mem _ hm)
    simp only [rsplit1, ih hcs, if_neg hc]

theorem not_mem_of_rsplit1_eq_none {sep : Char} : ∀ {s : List Char},
    rsplit1 sep s = none → sep ∉ s := by
  intro s
  induction s with
  | nil => intro _ h; simp at h
  | cons c cs ih =>
    intro h
    simp only [rsplit1] at h
    rcases hr : rsplit1 sep cs with _ | p
    · rw [hr] at h
      by_cases hc : c = sep
      · rw [if_pos hc] at h
        exact Option.noConfusion h
      · intro hm
        rcases List.mem_cons.1 hm with hm | hm
        · exact hc hm.symm
        · exact ih hr hm
    · rw [hr] at h
      exact Option.noConfusion h

theorem rsplit1_sound {sep : Char} : ∀ {s a b : List Char},
    rsplit1 sep s = some (a, b) → s = a ++ sep :: b ∧ sep ∉ b := by
  intro s
  induction s with
  | nil => intro a b h; simp [rsplit1] at h
  | cons c cs ih =>
    intro a b h
    simp only [rsplit1] at h
    rcases hr : rsplit1 sep cs with _ | p
    · rw [hr] at h
      by_cases hc : c = sep
      · rw [if_pos hc] at h
        injection h with h
        injection h with h1 h2
        subst h1; subst h2
        exact ⟨by rw [hc, List.nil_append], not_mem_of_rsplit1_eq_none hr⟩
      · rw [if_neg hc] at h
        exact Option.noConfusion h
    · rw [hr] at h
      injection h with h
      rcases p with ⟨a0, b0⟩
      rcases ih hr with ⟨hcs, hb⟩
      have ha : a = c :: a0 := by
        have := congrArg Prod.fst h
        simpa using this.symm
      have hbb : b = b0 := by
        have := congrArg Prod.snd h
        simpa using this.symm
      subst ha; subst hbb
      exact ⟨by rw [hcs]; rfl, hb⟩

theorem rsplit1_append_last {sep : Char} : ∀ (a b : List Char), sep ∉ b →
    rsplit1 sep (a ++ sep :: b) = some (a, b) := by
  intro a
  induction a with
  | nil =>
    intro b hb
    simp [rsplit1, rsplit1_eq_none hb]
  | cons c cs ih =>
    intro b hb
    simp only [List.cons_append, rsplit1, List.append_eq, ih b hb]

theorem stemExt_append {ext : List Char} (A : List Char) (hext : '.' ∉ ext) :
    stemExt (A ++ '.' :: ext) = (A, ext) := by
  simp [stemExt, rsplit1_append_last A ext hext]

theorem stemExt_no_dot {s : List Char} (h : '.' ∉ s) :
    stemExt s = (s, ['c', 'k']) := by
  simp [stemExt, rsplit1_eq_none h]

theorem ext_no_dot (s : List Char) : '.' ∉ (stemExt s).2 := by
  rcases hr : rsplit1 '.' s with _ | p
  · simp [stemExt, hr]
  · rcases p with ⟨a, b⟩
    simp only [stemExt, hr, Option.getD_some]
    exact (rsplit1_sound hr).2

/-! ## Decimal rendering lemmas -/

theorem natReprAux_digits : ∀ (fuel n : Nat), n < fuel →
    ∀ c ∈ natReprAux fuel n, c.isDigit = true := by
  intro fuel
  induction fuel with
  | zero => intro n h; omega
  | succ fuel ih =>
    intro n hn c hc
    by_cases h10 : n < 10
    · simp only [natReprAux, if_pos h10, List.mem_singleton] at hc
      subst hc
      interval_cases n <;> decide
    · simp only [natReprAux, if_neg h10, List.mem_append, List.mem_singleton] at hc
      rcases hc with hc | hc
      · have hlt : n / 10 < fuel := by omega
        exact ih (n / 10) hlt c hc
      · subst hc
        have : n % 10 < 10 := Nat.mod_lt _ (by omega)
        interval_cases h : n % 10 <;> simp_all <;> decide

theorem natRepr_digits (n : Nat) : ∀ c ∈ natRepr n, c.isDigit = true :=
  natReprAux_digits (n + 1) n (Nat.lt_succ_self n)

theorem natReprAux_ne_nil : ∀ (fuel n : Nat), n < fuel → natReprAux fuel n ≠ [] := by
  intro fuel
  induction fuel with
  | zero => intro n h; omega
  | succ fuel ih =>
    intro n hn
    by_cases h10 : n < 10
    · simp [natReprAux, if_pos h10]
    · simp only [natReprAux, if_neg h10]
      intro h
      rcases List.append_eq_nil.1 h with ⟨_, h2⟩
      exact List.noConfusion h2

theorem natRepr_ne_nil (n : Nat) : natRepr n ≠ [] :=
  natReprAux_ne_nil (n + 1) n (Nat.lt_succ_self n)

theorem digitVal_digitChar {m : Nat} (h : m < 10) :
    digitVal (Nat.digitChar m) = m := by
  interval_cases m <;> decide

theorem natReprAux_foldl : ∀ (fuel n acc : Nat), n < fuel →
    (natReprAux fuel n).foldl (fun a c => a * 10 + digitVal c) acc
      = acc * 10 ^ (natReprAux fuel n).length + n := by
  intro fuel
  induction fuel with
  | zero => intro n acc h; omega
  | succ fuel ih =>
    intro n acc hn
    by_cases h10 : n < 10
    · simp [natReprAux, if_pos h10, digitVal_digitChar h10]
    · simp only [natReprAux, if_neg h10, List.foldl_append, List.foldl_cons,
        List.foldl_nil, List.length_append, List.length_singleton]
      have hlt : n / 10 < fuel := by omega
      rw [ih (n / 10) acc hlt]
      have hmod : digitVal (Nat.digitChar (n % 10)) = n % 10 :=
        digitVal_digitChar (Nat.mod_lt _ (by omega))
      rw [hmod]
      have : (acc * 10 ^ (natReprAux fuel (n / 10)).length + n / 10) * 10 + n % 10
          = acc * (10 ^ (natReprAux fuel (n / 10)).length * 10) + (n / 10 * 10 + n % 10) := by
        ring
      rw [this, pow_succ]
      omega

/-! ## Python int() on digit strings -/

theorem not_digit_ne {c x : Char} (hx : x.isDigit = false) (h : c.isDigit = true) :
    c ≠ x := by
  intro hce
  rw [hce, hx] at h
  exact Bool.noConfusion h

theorem digit_not_ws {c : Char} (h : c.isDigit = true) : pyWs c = false := by
  by_contra hw
  rw [Bool.not_eq_false] at hw
  simp only [pyWs, Bool.or_eq_true, decide_eq_true_eq] at hw
  rcases hw with ((((h1 | h1) | h1) | h1) | h1) | h1 <;>
    (rw [h1] at h; exact Bool.noConfusion h)

theorem dropWhile_eq_self_of_all {p : Char → Bool} : ∀ {l : List Char},
    (∀ c ∈ l, p c = false) → l.dropWhile p = l := by
  intro l
  induction l with
  | nil => intro _; rfl
  | cons c cs _ =>
    intro h
    have := h c (List.mem_cons_self _ _)
    simp [List.dropWhile_cons, this]

theorem pyStrip_eq_self {s : List Char} (h : ∀ c ∈ s, pyWs c = false) :
    pyStrip s = s := by
  unfold pyStrip
  rw [dropWhile_eq_self_of_all h]
  rw [dropWhile_eq_self_of_all (fun c hc => h c (List.mem_reverse.1 hc))]
  exact List.reverse_reverse s

theorem digitsUCore_all_digits : ∀ (l : List Char) (acc : Nat),
    (∀ c ∈ l, c.isDigit = true) →
    digitsUCore acc l = some (l.foldl (fun a c => a * 10 + digitVal c) acc) := by
  intro l
  induction l with
  | nil => intro acc _; rfl
  | cons c cs ih =>
    intro acc h
    have hc := h c (List.mem_cons_self _ _)
    have hcu : ¬ c = '_' := not_digit_ne (by decide) hc
    unfold digitsUCore
    simp only [if_neg hcu, if_pos hc, List.foldl_cons]
    exact ih _ (fun x hx => h x (List.mem_cons_of_mem _ hx))

theorem digitsU_all_digits {l : List Char} (hne : l ≠ [])
    (h : ∀ c ∈ l, c.isDigit = true) :
    digitsU l = some (l.foldl (fun a c => a * 10 + digitVal c) 0) := by
  rcases l with _ | ⟨c, cs⟩
  · exact absurd rfl hne
  · have hc := h c (List.mem_cons_self _ _)
    simp only [digitsU, if_pos hc, List.foldl_cons]
    rw [digitsUCore_all_digits cs _ (fun x hx => h x (List.mem_cons_of_mem _ hx))]
    norm_num

theorem pyInt_of_digits {l : List Char} (hne : l ≠ [])
    (h : ∀ c ∈ l, c.isDigit = true) :
    pyInt l = some (Int.ofNat (l.foldl (fun a c => a * 10 + digitVal c) 0)) := by
  have hstrip : pyStrip l = l := pyStrip_eq_self (fun c hc => digit_not_ws (h c hc))
  rcases l with _ | ⟨c, cs⟩
  · exact absurd rfl hne
  · have hc := h c (List.mem_cons_self _ _)
    have hplus : ¬ (c :: cs).head? = some '+' := by
      simp only [List.head?_cons, Option.some_inj]
      exact fun hx => not_digit_ne (by decide) hc hx
    have hminus : ¬ (c :: cs).head? = some '-' := by
      simp only [List.head?_cons, Option.some_inj]
      exact fun hx => not_digit_ne (by decide) hc hx
    rw [pyInt]
    simp only [hstrip, if_neg hplus, if_neg hminus]
    rw [digitsU_all_digits (by simp) h]
    rfl

theorem natRepr_foldl (n : Nat) :
    (natRepr n).foldl (fun a c => a * 10 + digitVal c) 0 = n := by
  have := natReprAux_foldl (n + 1) n 0 (Nat.lt_succ_self n)
  simpa [natRepr] using this

theorem pyInt_natRepr (n : Nat) : pyInt (natRepr n) = some (Int.ofNat n) := by
  rw [pyInt_of_digits (natRepr_ne_nil n) (natRepr_digits n), natRepr_foldl]

theorem intRepr_ofNat (n : Nat) : intRepr (Int.ofNat n) = natRepr n := by
  simp [intRepr]

theorem intRepr_natCast (n : Nat) : intRepr ((n : Nat) : Int) = natRepr n :=
  intRepr_ofNat n

theorem natRepr_no_dash (n : Nat) : '-' ∉ natRepr n := by
  intro h
  exact not_digit_ne (by decide) (natRepr_digits n _ h) rfl

theorem natRepr_no_dot (n : Nat) : '.' ∉ natRepr n := by
  intro h
  exact not_digit_ne (by decide) (natRepr_digits n _ h) rfl

/-! ## Parsing generated filenames (dash-free stems) -/

theorem from_filename_plain {A ext : List Char} (hdash : '-' ∉ A)
    (hext : '.' ∉ ext) :
    ProjectVersion.from_filename (A ++ '.' :: ext) = ⟨A ++ '.' :: ext, none, none⟩ := by
  simp [ProjectVersion.from_filename, stemExt_append A hext, splitOn_not_mem hdash]

theorem from_filename_one {A ext : List Char} (n : Nat) (hdash : '-' ∉ A)
    (hext : '.' ∉ ext) :
    ProjectVersion.from_filename (A ++ '-' :: natRepr n ++ '.' :: ext)
      = ⟨A ++ '.' :: ext, some (Int.ofNat n), none⟩ := by
  have hstem : stemExt (A ++ '-' :: natRepr n ++ '.' :: ext)
      = (A ++ '-' :: natRepr n, ext) := by
    have h := stemExt_append (A ++ '-' :: natRepr n) hext
    simpa using h
  have hsplit : splitOn '-' (A ++ '-' :: natRepr n) = [A, natRepr n] := by
    rw [splitOn_append A (natRepr n) hdash, splitOn_not_mem (natRepr_no_dash n)]
  unfold ProjectVersion.from_filename
  rw [hstem]
  simp only [hsplit, pyInt_natRepr]

theorem from_filename_two {A ext : List Char} (n m : Nat) (hdash : '-' ∉ A)
    (hext : '.' ∉ ext) :
    ProjectVersion.from_filename (A ++ '-' :: natRepr n ++ '-' :: natRepr m ++ '.' :: ext)
      = ⟨A ++ '.' :: ext, some (Int.ofNat n), some (Int.ofNat m)⟩ := by
  have hstem : stemExt (A ++ '-' :: natRepr n ++ '-' :: natRepr m ++ '.' :: ext)
      = (A ++ '-' :: (natRepr n ++ '-' :: natRepr m), ext) := by
    have h := stemExt_append (A ++ '-' :: (natRepr n ++ '-' :: natRepr m)) hext
    simpa using h
  have hsplit : splitOn '-' (A ++ '-' :: (natRepr n ++ '-' :: natRepr m))
      = [A, natRepr n, natRepr m] := by
    rw [splitOn_append A _ hdash, splitOn_append _ _ (natRepr_no_dash n),
      splitOn_not_mem (natRepr_no_dash m)]
  unfold ProjectVersion.from_filename
  rw [hstem]
  simp only [hsplit, pyInt_natRepr]

/-! ## C1: filename round-trip -/

/-- C1 counterexample: for the base name `a-1-2-b.ck` (no shred id, no
replace index) the generated filename is `a-1-2-b.ck`, but re-generating
from its parse gives `a-1-2.ck` — the parser reads `1` and `2` as version
numbers and drops the trailing `-b`. -/
theorem C1_counterexample :
    (ProjectVersion.from_filename
        (ProjectVersion.filename ⟨"a-1-2-b.ck".data, none, none⟩)).filename
      ≠ ProjectVersion.filename ⟨"a-1-2-b.ck".data, none, none⟩ := by
  decide

/-- C1 (amended): for every generated filename whose base name has a
dash-free stem (and any optional shred id / replace index, ids being the
nonnegative integers the VM issues), re-generating a filename from its
parse is the identity. -/
theorem C1_round_trip (base : List Char) (s r : Option Nat)
    (hdash : '-' ∉ (stemExt base).1) :
    (ProjectVersion.from_filename
        (ProjectVersion.filename ⟨base, s.map Int.ofNat, r.map Int.ofNat⟩)).filename
      = ProjectVersion.filename ⟨base, s.map Int.ofNat, r.map Int.ofNat⟩ := by
  have hext : '.' ∉ (stemExt base).2 := ext_no_dot base
  rcases s with _ | n
  · simp only [Option.map_none']
    have hf : ProjectVersion.filename ⟨base, none, r.map Int.ofNat⟩
        = (stemExt base).1 ++ '.' :: (stemExt base).2 := by
      simp [ProjectVersion.filename]
    rw [hf, from_filename_plain hdash hext]
    simp [ProjectVersion.filename, stemExt_append _ hext]
  · rcases r with _ | m
    · simp only [Option.map_some', Option.map_none']
      have hf : ProjectVersion.filename ⟨base, some (Int.ofNat n), none⟩
          = (stemExt base).1 ++ '-' :: natRepr n ++ '.' :: (stemExt base).2 := by
        simp [ProjectVersion.filename, intRepr_ofNat, intRepr_natCast]
      rw [hf, from_filename_one n hdash hext]
      simp [ProjectVersion.filename, stemExt_append _ hext, intRepr_ofNat, intRepr_natCast]
    · simp only [Option.map_some', Option.map_none']
      have hf : ProjectVersion.filename ⟨base, some (Int.ofNat n), some (Int.ofNat m)⟩
          = (stemExt base).1 ++ '-' :: natRepr n ++ '-' :: natRepr m
              ++ '.' :: (stemExt base).2 := by
        simp [ProjectVersion.filename, intRepr_ofNat, intRepr_natCast]
      rw [hf, from_filename_two n m hdash hext]
      simp [ProjectVersion.filename, stemExt_append _ hext, intRepr_ofNat, intRepr_natCast]

/-- Witness for C1 at `loop.ck`, shred 7, replace 3. -/
theorem C1_round_trip_witness :
    (ProjectVersion.from_filename
        (ProjectVersion.filename ⟨"loop.ck".data, (some 7).map Int.ofNat,
          (some 3).map Int.ofNat⟩)).filename
      = ProjectVersion.filename ⟨"loop.ck".data, (some 7).map Int.ofNat,
          (some 3).map Int.ofNat⟩ :=
  C1_round_trip "loop.ck".data (some 7) (some 3) (by decide)

/-! ## C6: parsing is the exact inverse on generated versions -/

/-- C6 counterexample: `filename("mysynth", None, None)` is
`mysynth.ck`, not `mysynth` (the scheme appends the default `ck`
extension), so parsing the generated filename does not recover the
original `ProjectVersion`. -/
theorem C6_counterexample :
    ProjectVersion.from_filename
        (ProjectVersion.filename ⟨"mysynth".data, none, none⟩)
      ≠ (⟨"mysynth".data, none, none⟩ : ProjectVersion) := by
  decide

/-- C6 (amended): for versions whose base name carries an explicit
extension (a dot, with a dash-free stem), and whose replace index is only
set when the shred id is (a replace index without a shred id is ignored
by `filename`), parsing the generated filename recovers exactly the
original base name, shred id and replace index. -/
theorem C6_parse_exact_inverse (stem ext : List Char) (s r : Option Nat)
    (hdash : '-' ∉ stem) (hext : '.' ∉ ext) (hsr : s = none → r = none) :
    ProjectVersion.from_filename
        (ProjectVersion.filename
          ⟨stem ++ '.' :: ext, s.map Int.ofNat, r.map Int.ofNat⟩)
      = ⟨stem ++ '.' :: ext, s.map Int.ofNat, r.map Int.ofNat⟩ := by
  have hstem : stemExt (stem ++ '.' :: ext) = (stem, ext) := stemExt_append stem hext
  rcases s with _ | n
  · rw [hsr rfl]
    simp only [Option.map_none']
    have hf : ProjectVersion.filename ⟨stem ++ '.' :: ext, none, none⟩
        = stem ++ '.' :: ext := by
      simp [ProjectVersion.filename, hstem]
    rw [hf, from_filename_plain hdash hext]
  · rcases r with _ | m
    · simp only [Option.map_some', Option.map_none']
      have hf : ProjectVersion.filename ⟨stem ++ '.' :: ext, some (Int.ofNat n), none⟩
          = stem ++ '-' :: natRepr n ++ '.' :: ext := by
        simp [ProjectVersion.filename, hstem, intRepr_ofNat, intRepr_natCast]
      rw [hf, from_filename_one n hdash hext]
    · simp only [Option.map_some', Option.map_none']
      have hf : ProjectVersion.filename
            ⟨stem ++ '.' :: ext, some (Int.ofNat n), some (Int.ofNat m)⟩
          = stem ++ '-' :: natRepr n ++ '-' :: natRepr m ++ '.' :: ext := by
        simp [ProjectVersion.filename, hstem, intRepr_ofNat, intRepr_natCast]
      rw [hf, from_filename_two n m hdash hext]

/-- Witness for C6 at `loop.ck`, shred 7, replace 1. -/
theorem C6_parse_exact_inverse_witness :
    ProjectVersion.from_filename
        (ProjectVersion.filename
          ⟨"loop".data ++ '.' :: "ck".data, (some 7).map Int.ofNat,
            (some 1).map Int.ofNat⟩)
      = ⟨"loop".data ++ '.' :: "ck".data, (some 7).map Int.ofNat,
          (some 1).map Int.ofNat⟩ :=
  C6_parse_exact_inverse "loop".data "ck".data (some 7) (some 1)
    (by decide) (by decide) (by intro h; exact Option.noConfusion h)

/-! ## Matcher soundness -/

theorem firstSome_sound {α β : Type} {f : α → Option β} : ∀ {l : List α} {b : β},
    firstSome f l = some b → ∃ a ∈ l, f a = some b := by
  intro l
  induction l with
  | nil => intro b h; simp [firstSome] at h
  | cons x xs ih =>
    intro b h
    simp only [firstSome] at h
    rcases hf : f x with _ | y
    · rw [hf] at h
      rcases ih h with ⟨a, ha, hfa⟩
      exact ⟨a, List.mem_cons_of_mem _ ha, hfa⟩
    · rw [hf] at h
      exact ⟨x, List.mem_cons_self _ _, hf.trans h⟩

theorem mem_downFrom1 : ∀ {k i : Nat}, i ∈ downFrom1 k → 1 ≤ i ∧ i ≤ k := by
  intro k
  induction k with
  | zero => intro i h; simp [downFrom1] at h
  | succ k ih =>
    intro i h
    rcases List.mem_cons.1 h with rfl | h
    · omega
    · have := ih h
      omega

theorem take_all_sat {p : Char → Bool} {s : List Char} {i : Nat}
    (h : i ≤ (s.takeWhile p).length) : ∀ c ∈ s.take i, p c = true := by
  intro c hc
  have hpre : s.take i = (s.takeWhile p).take i := by
    conv_lhs => rw [← List.takeWhile_append_dropWhile p s]
    rw [List.take_append_of_le_length h]
  rw [hpre] at hc
  exact List.mem_takeWhile_imp (List.take_subset _ _ hc)

theorem take_ne_nil_of_pos {s : List Char} {i : Nat} (h1 : 1 ≤ i)
    (h2 : i ≤ s.length) : s.take i ≠ [] := by
  intro h
  have hlen : (s.take i).length = min i s.length := List.length_take _ _
  rw [h] at hlen
  simp at hlen
  omega

theorem gmatches_sound : ∀ (g : List GTok) (s a b : List Char),
    (a, b) ∈ gmatches g s → s = a ++ b ∧ GM g a := by
  intro g
  induction g with
  | nil =>
    intro s a b h
    simp only [gmatches, List.mem_singleton, Prod.mk.injEq] at h
    rcases h with ⟨rfl, rfl⟩
    exact ⟨rfl, GM.nil⟩
  | cons t g ih =>
    cases t with
    | glit c =>
      intro s a b h
      cases s with
      | nil => simp [gmatches] at h
      | cons x xs =>
        simp only [gmatches] at h
        by_cases hx : x = c
        · rw [if_pos hx] at h
          simp only [List.mem_map, Prod.mk.injEq] at h
          rcases h with ⟨⟨a0, b0⟩, hmem, h1, h2⟩
          rcases ih xs a0 b0 hmem with ⟨hs, hgm⟩
          subst h1
          subst h2
          rw [hx, hs]
          exact ⟨rfl, GM.lit hgm⟩
        · rw [if_neg hx] at h
          simp at h
    | gplus p =>
      intro s a b h
      simp only [gmatches, List.mem_flatMap] at h
      rcases h with ⟨i, hi, hmem⟩
      simp only [List.mem_map, Prod.mk.injEq] at hmem
      rcases hmem with ⟨⟨a0, b0⟩, hmem0, h1, h2⟩
      obtain ⟨hi1, hik⟩ := mem_downFrom1 hi
      rcases ih (s.drop i) a0 b0 hmem0 with ⟨hs, hgm⟩
      subst h1
      subst h2
      have hlen : i ≤ s.length :=
        le_trans hik (List.takeWhile_prefix p).length_le
      constructor
      · rw [List.append_assoc, ← hs, List.take_append_drop]
      · exact GM.plus (s.take i) (take_ne_nil_of_pos hi1 hlen) (take_all_sat hik) hgm

theorem matchSeq_sound : ∀ (rs : List RTok) (s : List Char) (caps : List (List Char)),
    matchSeq rs s = some caps →
    ∃ cs rest, s = cs ++ rest ∧ (rest = [] ∨ rest = ['\n']) ∧ SeqM rs cs caps := by
  intro rs
  induction rs with
  | nil =>
    intro s caps h
    simp only [matchSeq] at h
    by_cases hs : s = [] ∨ s = ['\n']
    · rw [if_pos hs] at h
      injection h with h
      subst h
      exact ⟨[], s, rfl, hs, SeqM.nil⟩
    · rw [if_neg hs] at h
      exact Option.noConfusion h
  | cons t rs ih =>
    cases t with
    | lit c =>
      intro s caps h
      cases s with
      | nil => simp [matchSeq] at h
      | cons x xs =>
        simp only [matchSeq] at h
        by_cases hx : x = c
        · rw [if_pos hx] at h
          rcases ih xs caps h with ⟨cs, rest, hs, hrest, hm⟩
          refine ⟨c :: cs, rest, ?_, hrest, SeqM.lit hm⟩
          rw [hx, hs]
          rfl
        · rw [if_neg hx] at h
          exact Option.noConfusion h
    | plus p =>
      intro s caps h
      simp only [matchSeq] at h
      rcases firstSome_sound h with ⟨i, hi, hmi⟩
      obtain ⟨hi1, hik⟩ := mem_downFrom1 hi
      rcases ih _ caps hmi with ⟨cs, rest, hs, hrest, hm⟩
      have hlen : i ≤ s.length :=
        le_trans hik (List.takeWhile_prefix p).length_le
      refine ⟨s.take i ++ cs, rest, ?_, hrest,
        SeqM.plus (s.take i) (take_ne_nil_of_pos hi1 hlen) (take_all_sat hik) hm⟩
      rw [List.append_assoc, ← hs, List.take_append_drop]
    | star p =>
      intro s caps h
      simp only [matchSeq] at h
      rcases firstSome_sound h with ⟨i, hi, hmi⟩
      have hik : i ≤ (s.takeWhile p).length := by
        rcases List.mem_append.1 hi with h1 | h1
        · exact (mem_downFrom1 h1).2
        · simp only [List.mem_singleton] at h1
          subst h1
          exact Nat.zero_le _
      rcases ih _ caps hmi with ⟨cs, rest, hs, hrest, hm⟩
      refine ⟨s.take i ++ cs, rest, ?_, hrest,
        SeqM.star (s.take i) (take_all_sat hik) hm⟩
      rw [List.append_assoc, ← hs, List.take_append_drop]
    | group g =>
      intro s caps h
      simp only [matchSeq] at h
      rcases firstSome_sound h with ⟨⟨a, b⟩, hab, hmi⟩
      rcases Option.map_eq_some'.1 hmi with ⟨caps0, hmb, hcaps⟩
      rcases gmatches_sound g s a b hab with ⟨hs, hgm⟩
      rcases ih b caps0 hmb with ⟨cs, rest, hb, hrest, hm⟩
      subst hcaps
      refine ⟨a ++ cs, rest, ?_, hrest, SeqM.group hgm hm⟩
      rw [hs, hb, List.append_assoc]

/-! ## Inversion lemmas for the match relations -/

theorem SeqM_nil_inv {cs caps} (h : SeqM [] cs caps) : cs = [] ∧ caps = [] := by
  cases h
  exact ⟨rfl, rfl⟩

theorem SeqM_lit_inv {c rs cs caps} (h : SeqM (.lit c :: rs) cs caps) :
    ∃ cs', cs = c :: cs' ∧ SeqM rs cs' caps := by
  cases h with
  | lit h => exact ⟨_, rfl, h⟩

theorem SeqM_plus_inv {p rs cs caps} (h : SeqM (.plus p :: rs) cs caps) :
    ∃ chunk cs', chunk ≠ [] ∧ (∀ c ∈ chunk, p c = true) ∧
      cs = chunk ++ cs' ∧ SeqM rs cs' caps := by
  cases h with
  | plus chunk hne hall h => exact ⟨chunk, _, hne, hall, rfl, h⟩

theorem SeqM_star_inv {p rs cs caps} (h : SeqM (.star p :: rs) cs caps) :
    ∃ chunk cs', (∀ c ∈ chunk, p c = true) ∧ cs = chunk ++ cs' ∧ SeqM rs cs' caps := by
  cases h with
  | star chunk hall h => exact ⟨chunk, _, hall, rfl, h⟩

theorem SeqM_group_inv {g rs cs caps} (h : SeqM (.group g :: rs) cs caps) :
    ∃ a cs' caps', GM g a ∧ cs = a ++ cs' ∧ caps = a :: caps' ∧ SeqM rs cs' caps' := by
  cases h with
  | group hg h => exact ⟨_, _, _, hg, rfl, rfl, h⟩

theorem GM_nil_inv {a} (h : GM [] a) : a = [] := by
  cases h
  rfl

theorem GM_plus_inv {p g a} (h : GM (.gplus p :: g) a) :
    ∃ chunk a', chunk ≠ [] ∧ (∀ c ∈ chunk, p c = true) ∧ a = chunk ++ a' ∧ GM g a' := by
  cases h with
  | plus chunk hne hall h => exact ⟨chunk, _, hne, hall, rfl, h⟩

theorem GM_single_plus {p a} (h : GM [.gplus p] a) :
    a ≠ [] ∧ ∀ c ∈ a, p c = true := by
  rcases GM_plus_inv h with ⟨chunk, a', hne, hall, rfl, hnil⟩
  rw [GM_nil_inv hnil, List.append_nil]
  exact ⟨hne, hall⟩

theorem SeqM_lits_inv : ∀ (l : List Char) {rs cs caps},
    SeqM (l.map .lit ++ rs) cs caps → ∃ cs', cs = l ++ cs' ∧ SeqM rs cs' caps := by
  intro l
  induction l with
  | nil => intro rs cs caps h; exact ⟨cs, rfl, h⟩
  | cons c l ih =>
    intro rs cs caps h
    rcases SeqM_lit_inv h with ⟨cs1, rfl, h1⟩
    rcases ih h1 with ⟨cs', rfl, h2⟩
    exact ⟨cs', rfl, h2⟩

theorem SeqM_last_lit : ∀ (rs : List RTok) {c cs caps},
    SeqM (rs ++ [.lit c]) cs caps → ∃ u, cs = u ++ [c] := by
  intro rs
  induction rs with
  | nil =>
    intro c cs caps h
    rcases SeqM_lit_inv h with ⟨cs', rfl, h'⟩
    rcases SeqM_nil_inv h' with ⟨rfl, _⟩
    exact ⟨[], rfl⟩
  | cons t rs ih =>
    intro c cs caps h
    cases t with
    | lit c0 =>
      rcases SeqM_lit_inv h with ⟨cs1, rfl, h1⟩
      rcases ih h1 with ⟨u, rfl⟩
      exact ⟨c0 :: u, rfl⟩
    | plus p =>
      rcases SeqM_plus_inv h with ⟨chunk, cs1, _, _, rfl, h1⟩
      rcases ih h1 with ⟨u, rfl⟩
      exact ⟨chunk ++ u, by rw [List.append_assoc]⟩
    | star p =>
      rcases SeqM_star_inv h with ⟨chunk, cs1, _, rfl, h1⟩
      rcases ih h1 with ⟨u, rfl⟩
      exact ⟨chunk ++ u, by rw [List.append_assoc]⟩
    | group g =>
      rcases SeqM_group_inv h with ⟨a, cs1, caps1, _, rfl, _, h1⟩
      rcases ih h1 with ⟨u, rfl⟩
      exact ⟨a ++ u, by rw [List.append_assoc]⟩

/-- A pattern ending in a literal (before the implicit `$`) cannot match
a string whose last character is neither that literal nor a newline. -/
theorem matchSeq_none_last_lit {rs : List RTok} {c : Char} {s : List Char} {k : Char}
    (hlast : s.getLast? = some k) (hk1 : k ≠ c) (hk2 : k ≠ '\n') :
    matchSeq (rs ++ [.lit c]) s = none := by
  rcases hm : matchSeq (rs ++ [.lit c]) s with _ | caps
  · exact hm
  · exfalso
    rcases matchSeq_sound _ _ _ hm with ⟨cs, rest, hs, hrest, hseq⟩
    rcases SeqM_last_lit rs hseq with ⟨u, hu⟩
    rcases hrest with rfl | rfl
    · rw [List.append_nil] at hs
      rw [hs, hu, List.getLast?_concat] at hlast
      exact hk1 (Option.some_inj.1 hlast).symm
    · rw [hs, List.getLast?_concat] at hlast
      exact hk2 (Option.some_inj.1 hlast).symm

/-! ## Handlers that convert digit captures never raise -/

theorem pyIntE_ok_of_digits {l : List Char} (hne : l ≠ [])
    (h : ∀ c ∈ l, c.isDigit = true) : ∃ n, pyIntE l = .ok n := by
  rw [pyIntE, pyInt_of_digits hne h]
  exact ⟨_, rfl⟩

theorem digitP_caps {a : List Char} (hall : ∀ c ∈ a, digitP c = true) :
    ∀ c ∈ a, c.isDigit = true := hall

theorem rule3_ok {s caps}
    (h : matchSeq (lits "remove" ++ [.plus pyWs, .group [.gplus digitP]]) s = some caps) :
    ∃ cmd, removeShredH caps = .ok cmd := by
  rcases matchSeq_sound _ _ _ h with ⟨cs, rest, _, _, hm⟩
  rcases SeqM_lits_inv "remove".data (by simpa [lits] using hm) with ⟨cs1, _, hm1⟩
  rcases SeqM_plus_inv hm1 with ⟨w, cs2, _, _, _, hm2⟩
  rcases SeqM_group_inv hm2 with ⟨a, cs3, caps3, hg, _, hcaps, hm3⟩
  rcases SeqM_nil_inv hm3 with ⟨_, rfl⟩
  obtain ⟨hne, hall⟩ := GM_single_plus hg
  rcases pyIntE_ok_of_digits hne (digitP_caps hall) with ⟨n, hn⟩
  subst hcaps
  refine ⟨⟨"remove_shred", [("id", .vint n)]⟩, ?_⟩
  simp [removeShredH, hn, Except.map]

theorem rule4_ok {s caps}
    (h : matchSeq (lits "replace" ++ [.plus pyWs, .group [.gplus digitP], .plus pyWs,
        .group grpCk]) s = some caps) :
    ∃ cmd, replaceShredFileH caps = .ok cmd := by
  rcases matchSeq_sound _ _ _ h with ⟨cs, rest, _, _, hm⟩
  rcases SeqM_lits_inv "replace".data (by simpa [lits] using hm) with ⟨cs1, _, hm1⟩
  rcases SeqM_plus_inv hm1 with ⟨w, cs2, _, _, _, hm2⟩
  rcases SeqM_group_inv hm2 with ⟨a, cs3, caps3, hg, _, hcaps, hm3⟩
  rcases SeqM_plus_inv hm3 with ⟨w2, cs4, _, _, _, hm4⟩
  rcases SeqM_group_inv hm4 with ⟨b, cs5, caps5, _, _, hcaps2, hm5⟩
  rcases SeqM_nil_inv hm5 with ⟨_, rfl⟩
  obtain ⟨hne, hall⟩ := GM_single_plus hg
  rcases pyIntE_ok_of_digits hne (digitP_caps hall) with ⟨n, hn⟩
  subst hcaps2
  subst hcaps
  refine ⟨⟨"replace_shred_file", [("id", .vint n), ("path", .vstr b)]⟩, ?_⟩
  simp [replaceShredFileH, hn, Except.map]

theorem rule11_ok {s caps}
    (h : matchSeq [.lit '-', .star pyWs, .group [.gplus digitP]] s = some caps) :
    ∃ cmd, removeShredH caps = .ok cmd := by
  rcases matchSeq_sound _ _ _ h with ⟨cs, rest, _, _, hm⟩
  rcases SeqM_lit_inv hm with ⟨cs1, _, hm1⟩
  rcases SeqM_star_inv hm1 with ⟨w, cs2, _, _, hm2⟩
  rcases SeqM_group_inv hm2 with ⟨a, cs3, caps3, hg, _, hcaps, hm3⟩
  rcases SeqM_nil_inv hm3 with ⟨_, rfl⟩
  obtain ⟨hne, hall⟩ := GM_single_plus hg
  rcases pyIntE_ok_of_digits hne (digitP_caps hall) with ⟨n, hn⟩
  subst hcaps
  refine ⟨⟨"remove_shred", [("id", .vint n)]⟩, ?_⟩
  simp [removeShredH, hn, Except.map]

theorem rule12_ok {s caps}
    (h : matchSeq [.lit '~', .plus pyWs, .group [.gplus digitP], .plus pyWs,
        .lit '"', .group [.gplus notDQ], .lit '"'] s = some caps) :
    ∃ cmd, replaceShredH caps = .ok cmd := by
  rcases matchSeq_sound _ _ _ h with ⟨cs, rest, _, _, hm⟩
  rcases SeqM_lit_inv hm with ⟨cs1, _, hm1⟩
  rcases SeqM_plus_inv hm1 with ⟨w, cs2, _, _, _, hm2⟩
  rcases SeqM_group_inv hm2 with ⟨a, cs3, caps3, hg, _, hcaps, hm3⟩
  rcases SeqM_plus_inv hm3 with ⟨w2, cs4, _, _, _, hm4⟩
  rcases SeqM_lit_inv hm4 with ⟨cs5, _, hm5⟩
  rcases SeqM_group_inv hm5 with ⟨b, cs6, caps6, _, _, hcaps2, hm6⟩
  rcases SeqM_lit_inv hm6 with ⟨cs7, _, hm7⟩
  rcases SeqM_nil_inv hm7 with ⟨_, rfl⟩
  obtain ⟨hne, hall⟩ := GM_single_plus hg
  rcases pyIntE_ok_of_digits hne (digitP_caps hall) with ⟨n, hn⟩
  subst hcaps2
  subst hcaps
  refine ⟨⟨"replace_shred", [("id", .vint n), ("code", .vstr b)]⟩, ?_⟩
  simp [replaceShredH, hn, Except.map]

theorem rule14_ok {s caps}
    (h : matchSeq [.lit '?', .plus pyWs, .group [.gplus digitP]] s = some caps) :
    ∃ cmd, shredInfoH caps = .ok cmd := by
  rcases matchSeq_sound _ _ _ h with ⟨cs, rest, _, _, hm⟩
  rcases SeqM_lit_inv hm with ⟨cs1, _, hm1⟩
  rcases SeqM_plus_inv hm1 with ⟨w, cs2, _, _, _, hm2⟩
  rcases SeqM_group_inv hm2 with ⟨a, cs3, caps3, hg, _, hcaps, hm3⟩
  rcases SeqM_nil_inv hm3 with ⟨_, rfl⟩
  obtain ⟨hne, hall⟩ := GM_single_plus hg
  rcases pyIntE_ok_of_digits hne (digitP_caps hall) with ⟨n, hn⟩
  subst hcaps
  refine ⟨⟨"shred_info", [("id", .vint n)]⟩, ?_⟩
  simp [shredInfoH, hn, Except.map]

theorem rule31_ok {s caps}
    (h : matchSeq (lits "edit" ++ [.star pyWs, .group [.gplus digitP]]) s = some caps) :
    ∃ cmd, editShredH caps = .ok cmd := by
  rcases matchSeq_sound _ _ _ h with ⟨cs, rest, _, _, hm⟩
  rcases SeqM_lits_inv "edit".data (by simpa [lits] using hm) with ⟨cs1, _, hm1⟩
  rcases SeqM_star_inv hm1 with ⟨w, cs2, _, _, hm2⟩
  rcases SeqM_group_inv hm2 with ⟨a, cs3, caps3, hg, _, hcaps, hm3⟩
  rcases SeqM_nil_inv hm3 with ⟨_, rfl⟩
  obtain ⟨hne, hall⟩ := GM_single_plus hg
  rcases pyIntE_ok_of_digits hne (digitP_caps hall) with ⟨n, hn⟩
  subst hcaps
  refine ⟨⟨"edit_shred", [("id", .vint n)]⟩, ?_⟩
  simp [editShredH, hn, Except.map]

/-! ## Parser outcome characterization -/

theorem Except_map_error {α β : Type} {f : α → β} {x : Except String α} {e : String}
    (h : x.map f = .error e) : x = .error e := by
  cases x with
  | error e0 =>
    injection h with h
    rw [h]
  | ok a => exact Except.noConfusion h

theorem tryRules_error : ∀ (L : List (List RTok × Handler)) (s : List Char) (e : String),
    tryRules L s = .error e →
    ∃ pat hh caps, (pat, hh) ∈ L ∧ matchSeq pat s = some caps ∧ hh caps = .error e := by
  intro L
  induction L with
  | nil => intro s e h; exact Except.noConfusion h
  | cons q rest ih =>
    intro s e h
    rcases q with ⟨pat, hh⟩
    simp only [tryRules] at h
    split at h
    · rename_i caps heq
      exact ⟨pat, hh, caps, List.mem_cons_self _ _, heq, Except_map_error h⟩
    · rcases ih s e h with ⟨p2, hh2, caps2, hmem, hm2, he2⟩
      exact ⟨p2, hh2, caps2, List.mem_cons_of_mem _ hmem, hm2, he2⟩

theorem tryRules_ok_some : ∀ (L : List (List RTok × Handler)) (s : List Char)
    (c : Command), tryRules L s = .ok (some c) →
    ∃ pre pat hh rest caps, L = pre ++ (pat, hh) :: rest ∧
      (∀ q ∈ pre, matchSeq q.1 s = none) ∧
      matchSeq pat s = some caps ∧ hh caps = .ok c := by
  intro L
  induction L with
  | nil => intro s c h; exact Option.noConfusion (Except.ok.inj h)
  | cons q rest ih =>
    intro s c h
    rcases q with ⟨pat, hh⟩
    simp only [tryRules] at h
    split at h
    · rename_i caps heq
      rcases he : hh caps with e | c2
      · rw [he] at h
        simp [Except.map] at h
      · rw [he] at h
        simp only [Except.map] at h
        injection h with h
        injection h with h
        exact ⟨[], pat, hh, rest, caps, rfl, by intro q hq; simp at hq, heq,
          by rw [he, h]⟩
    · rename_i heq
      rcases ih s c h with ⟨pre, p2, hh2, rest2, caps2, hL, hpre, hm2, hok⟩
      refine ⟨(pat, hh) :: pre, p2, hh2, rest2, caps2, by rw [hL]; rfl, ?_, hm2, hok⟩
      intro q hq
      rcases List.mem_cons.1 hq with rfl | hq
      · exact heq
      · exact hpre q hq

theorem parse_value_error {s0 : List Char} {e : String}
    (h : parse_value s0 = .error e) :
    (pyStrip s0).head? = some '[' ∧ (pyStrip s0).getLast? = some ']' ∧
      literalListEv (pyStrip s0) = .error e := by
  unfold parse_value at h
  by_cases hb : (pyStrip s0).head? = some '[' ∧ (pyStrip s0).getLast? = some ']'
  · rw [if_pos hb] at h
    exact ⟨hb.1, hb.2, h⟩
  · rw [if_neg hb] at h
    split_ifs at h

theorem parse_error_char (s : List Char) (e : String) (h : parse s = .error e) :
    ∃ caps, matchSeq patSetGlobal s = some caps ∧
      parse_value (caps.getD 1 []) = .error e ∧
      (pyStrip (caps.getD 1 [])).head? = some '[' ∧
      (pyStrip (caps.getD 1 [])).getLast? = some ']' ∧
      literalListEv (pyStrip (caps.getD 1 [])) = .error e := by
  rcases tryRules_error patterns s e h with ⟨pat, hh, caps, hmem, hmatch, herr⟩
  simp only [patterns, List.mem_cons, List.not_mem_nil, or_false,
    Prod.mk.injEq] at hmem
  rcases hmem with ⟨rfl, rfl⟩ | hmem
  · simp [sporkFileH] at herr
  rcases hmem with ⟨rfl, rfl⟩ | hmem
  · simp [removeAllH] at herr
  rcases hmem with ⟨rfl, rfl⟩ | hmem
  · rcases rule3_ok hmatch with ⟨cmd, hok⟩
    rw [hok] at herr
    exact Except.noConfusion herr
  rcases hmem with ⟨rfl, rfl⟩ | hmem
  · rcases rule4_ok hmatch with ⟨cmd, hok⟩
    rw [hok] at herr
    exact Except.noConfusion herr
  rcases hmem with ⟨rfl, rfl⟩ | hmem
  · simp [statusH] at herr
  rcases hmem with ⟨rfl, rfl⟩ | hmem
  · simp [currentTimeH] at herr
  rcases hmem with ⟨rfl, rfl⟩ | hmem
  · simp [sporkFileH] at herr
  rcases hmem with ⟨rfl, rfl⟩ | hmem
  · simp [sporkCodeH] at herr
  rcases hmem with ⟨rfl, rfl⟩ | hmem
  · simp [sporkCodeH] at herr
  rcases hmem with ⟨rfl, rfl⟩ | hmem
  · simp [removeAllH] at herr
  rcases hmem with ⟨rfl, rfl⟩ | hmem
  · rcases rule11_ok hmatch with ⟨cmd, hok⟩
    rw [hok] at herr
    exact Except.noConfusion herr
  rcases hmem with ⟨rfl, rfl⟩ | hmem
  · rcases rule12_ok hmatch with ⟨cmd, hok⟩
    rw [hok] at herr
    exact Except.noConfusion herr
  rcases hmem with ⟨rfl, rfl⟩ | hmem
  · simp [listShredsH] at herr
  rcases hmem with ⟨rfl, rfl⟩ | hmem
  · rcases rule14_ok hmatch with ⟨cmd, hok⟩
    rw [hok] at herr
    exact Except.noConfusion herr
  rcases hmem with ⟨rfl, rfl⟩ | hmem
  · simp [listGlobalsH] at herr
  rcases hmem with ⟨rfl, rfl⟩ | hmem
  · simp [audioInfoH] at herr
  rcases hmem with ⟨rfl, rfl⟩ | hmem
  · simp [currentTimeH] at herr
  rcases hmem with ⟨rfl, rfl⟩ | hmem
  · refine ⟨caps, hmatch, ?_⟩
    have hpv : parse_value (caps.getD 1 []) = .error e := by
      have := herr
      simp only [setGlobalH] at this
      exact Except_map_error this
    rcases parse_value_error hpv with ⟨h1, h2, h3⟩
    exact ⟨hpv, h1, h2, h3⟩
  rcases hmem with ⟨rfl, rfl⟩ | hmem
  · simp [getGlobalH] at herr
  rcases hmem with ⟨rfl, rfl⟩ | hmem
  · simp [broadcastEventH] at herr
  rcases hmem with ⟨rfl, rfl⟩ | hmem
  · simp [signalEventH] at herr
  rcases hmem with ⟨rfl, rfl⟩ | hmem
  · simp [startAudioH] at herr
  rcases hmem with ⟨rfl, rfl⟩ | hmem
  · simp [stopAudioH] at herr
  rcases hmem with ⟨rfl, rfl⟩ | hmem
  · simp [shutdownAudioH] at herr
  rcases hmem with ⟨rfl, rfl⟩ | hmem
  · simp [clearVmH] at herr
  rcases hmem with ⟨rfl, rfl⟩ | hmem
  · simp [resetIdH] at herr
  rcases hmem with ⟨rfl, rfl⟩ | hmem
  · simp [clearScreenH] at herr
  rcases hmem with ⟨rfl, rfl⟩ | hmem
  · simp [compileFileH] at herr
  rcases hmem with ⟨rfl, rfl⟩ | hmem
  · simp [execCodeH] at herr
  rcases hmem with ⟨rfl, rfl⟩ | hmem
  · simp [shellH] at herr
  rcases hmem with ⟨rfl, rfl⟩ | hmem
  · rcases rule31_ok hmatch with ⟨cmd, hok⟩
    rw [hok] at herr
    exact Except.noConfusion herr
  rcases hmem with ⟨rfl, rfl⟩ | hmem
  · simp [openEditorH] at herr
  rcases hmem with ⟨rfl, rfl⟩ | hmem
  · simp [watchH] at herr
  rcases hmem with ⟨rfl, rfl⟩
  simp [loadSnippetH] at herr

/-! ## C2: parser totality -/

/-- C2 counterexample: the input `x::[oops]` matches the set-global rule,
whose handler feeds the bracketed value to `ast.literal_eval`; on a
non-literal bracketed value that call raises a ValueError which
propagates out of `parse`. -/
theorem C2_counterexample :
    parse "x::[oops]".data = .error "malformed node or string" := by
  rfl

/-- C2 (amended): every input string either yields the Command of the
first matching pattern (in the fixed priority order — the earlier
patterns all fail), or "no match" (`ok none`); the only inputs on which
`parse` raises are those matching the set-global rule with a bracketed
value that `ast.literal_eval` rejects (e.g. `x::[oops]`). -/
theorem C2_parser_totality (s : List Char) :
    parse s = .ok none ∨
    (∃ c, parse s = .ok (some c) ∧
      ∃ pre pat hh rest caps, patterns = pre ++ (pat, hh) :: rest ∧
        (∀ q ∈ pre, matchSeq q.1 s = none) ∧
        matchSeq pat s = some caps ∧ hh caps = .ok c) ∨
    (∃ e caps, parse s = .error e ∧ matchSeq patSetGlobal s = some caps ∧
      (pyStrip (caps.getD 1 [])).head? = some '[' ∧
      (pyStrip (caps.getD 1 [])).getLast? = some ']' ∧
      literalListEv (pyStrip (caps.getD 1 [])) = .error e) := by
  rcases hp : parse s with e | oc
  · right
    right
    rcases parse_error_char s e hp with ⟨caps, h1, _, h3, h4, h5⟩
    exact ⟨e, caps, rfl, h1, h3, h4, h5⟩
  · rcases oc with _ | c
    · left
      rfl
    · right
      left
      rcases tryRules_ok_some patterns s c hp with ⟨pre, pat, hh, rest, caps, hL, hpre, hm, hok⟩
      exact ⟨c, rfl, pre, pat, hh, rest, caps, hL, hpre, hm, hok⟩

/-! ## C8: word-style commands alias their symbol shortcuts -/

theorem tryRules_cons_none {pat : List RTok} {h : Handler}
    {rest : List (List RTok × Handler)} {s : List Char}
    (hm : matchSeq pat s = none) :
    tryRules ((pat, h) :: rest) s = tryRules rest s := by
  simp [tryRules, hm]

theorem tryRules_cons_some {pat : List RTok} {h : Handler}
    {rest : List (List RTok × Handler)} {s : List Char} {caps : List (List Char)}
    (hm : matchSeq pat s = some caps) :
    tryRules ((pat, h) :: rest) s = (h caps).map some := by
  simp [tryRules, hm]

theorem takeWhile_eq_nil_of_all_false {p : Char → Bool} : ∀ {l : List Char},
    (∀ c ∈ l, p c = false) → l.takeWhile p = [] := by
  intro l
  cases l with
  | nil => intro _; rfl
  | cons c cs =>
    intro h
    simp [List.takeWhile_cons, h c (List.mem_cons_self _ _)]

theorem takeWhile_eq_self_of_all {p : Char → Bool} : ∀ {l : List Char},
    (∀ c ∈ l, p c = true) → l.takeWhile p = l := by
  intro l
  induction l with
  | nil => intro _; rfl
  | cons c cs ih =>
    intro h
    simp [List.takeWhile_cons, h c (List.mem_cons_self _ _),
      ih (fun x hx => h x (List.mem_cons_of_mem _ hx))]

theorem ws_run_digits {d : List Char} (hd : ∀ c ∈ d, c.isDigit = true) :
    (' ' :: d).takeWhile pyWs = [' '] := by
  rw [List.takeWhile_cons]
  simp only [show pyWs ' ' = true from rfl, if_true]
  rw [takeWhile_eq_nil_of_all_false (fun c hc => digit_not_ws (hd c hc))]

/-- Consuming the single separating space before an all-digit remainder:
the greedy `\s+` has exactly one candidate. -/
theorem plusWs_step {rs : List RTok} {d : List Char}
    (hd : ∀ c ∈ d, c.isDigit = true) :
    matchSeq (.plus pyWs :: rs) (' ' :: d) = matchSeq rs d := by
  have e1 : matchSeq (.plus pyWs :: rs) (' ' :: d)
      = firstSome (fun i => matchSeq rs ((' ' :: d).drop i))
          (downFrom1 ((' ' :: d).takeWhile pyWs).length) := rfl
  rw [e1, ws_run_digits hd]
  rcases h : matchSeq rs d with _ | caps <;>
    simp [downFrom1, firstSome, h]

/-- The `\s*` of `^-\s*(\d+)$` before an all-digit remainder: candidates
are the space and the empty run. -/
theorem starWs_step {rs : List RTok} {d : List Char}
    (hd : ∀ c ∈ d, c.isDigit = true) :
    matchSeq (.star pyWs :: rs) (' ' :: d)
      = match matchSeq rs d with
        | some b => some b
        | none => matchSeq rs (' ' :: d) := by
  have e1 : matchSeq (.star pyWs :: rs) (' ' :: d)
      = firstSome (fun i => matchSeq rs ((' ' :: d).drop i))
          (downFrom1 ((' ' :: d).takeWhile pyWs).length ++ [0]) := rfl
  rw [e1, ws_run_digits hd]
  rcases h : matchSeq rs d with _ | caps <;>
    rcases h0 : matchSeq rs (' ' :: d) with _ | caps0 <;>
      simp [downFrom1, firstSome, h, h0]

theorem lit_fail_on_digits {c : Char} (hc : c.isDigit = false) (rs : List RTok) :
    ∀ {d : List Char}, (∀ x ∈ d, x.isDigit = true) →
    matchSeq (.lit c :: rs) d = none := by
  intro d hd
  cases d with
  | nil => rfl
  | cons x xs =>
    have hx : ¬ x = c := not_digit_ne hc (hd x (List.mem_cons_self _ _))
    have e1 : matchSeq (.lit c :: rs) (x :: xs)
        = if x = c then matchSeq rs xs else none := rfl
    rw [e1, if_neg hx]

/-- `(\d+)$` on an all-digit remainder: the greedy group takes the whole
string (first candidate), capturing it. -/
theorem group_digits_all {c : Char} {cs : List Char}
    (hd : ∀ x ∈ c :: cs, x.isDigit = true) :
    matchSeq [.group [.gplus digitP]] (c :: cs) = some [c :: cs] := by
  have e1 : matchSeq [.group [.gplus digitP]] (c :: cs)
      = firstSome (fun ab => (matchSeq [] ab.2).map (fun caps => ab.1 :: caps))
          (gmatches [.gplus digitP] (c :: cs)) := rfl
  have e2 : gmatches [.gplus digitP] (c :: cs)
      = (downFrom1 ((c :: cs).takeWhile digitP).length).flatMap
          (fun i => (gmatches [] ((c :: cs).drop i)).map
            (fun ab => ((c :: cs).take i ++ ab.1, ab.2))) := rfl
  have htw : (c :: cs).takeWhile digitP = c :: cs := takeWhile_eq_self_of_all hd
  rw [e1, e2, htw]
  have hlen : (c :: cs).length = cs.length + 1 := rfl
  rw [hlen]
  have hdf : downFrom1 (cs.length + 1) = (cs.length + 1) :: downFrom1 cs.length := rfl
  rw [hdf]
  have htake : (c :: cs).take (cs.length + 1) = c :: cs := by
    rw [← hlen]
    exact List.take_length _
  have hdrop : (c :: cs).drop (cs.length + 1) = [] := by
    rw [← hlen]
    exact List.drop_length _
  simp only [List.flatMap_cons, gmatches, hdrop, htake, List.map_cons, List.map_nil,
    List.cons_append, List.nil_append, List.append_nil, firstSome, matchSeq]
  rfl

/-- `parse` on an `add ...` line: only the first rule can fire; its value
is determined by the match of `\s+(.+\.ck)$` against the remainder. -/
theorem parse_add_form (p : List Char) :
    parse ('a' :: 'd' :: 'd' :: ' ' :: p)
      = match matchSeq [.plus pyWs, .group grpCk] (' ' :: p) with
        | some caps => (sporkFileH caps).map some
        | none => .ok none := by
  rcases hT : matchSeq [.plus pyWs, .group grpCk] (' ' :: p) with _ | caps
  · refine (tryRules_cons_none ?_).trans ?_
    · exact hT
    rfl
  · exact tryRules_cons_some
      (show matchSeq (lits "add" ++ [RTok.plus pyWs, RTok.group grpCk])
        ('a' :: 'd' :: 'd' :: ' ' :: p) = some caps from hT)

/-- `parse` on a `+ ...` line whose remainder ends in `.ck`: rules before
the symbol spork-file rule fail on the first character, and the quoted
spork-code rules fail because the line does not end in a quote. -/
theorem parse_plus_form (q : List Char) :
    parse ('+' :: ' ' :: (q ++ ['.', 'c', 'k']))
      = match matchSeq [.plus pyWs, .group grpCk] (' ' :: (q ++ ['.', 'c', 'k'])) with
        | some caps => (sporkFileH caps).map some
        | none => .ok none := by
  have hlast : ('+' :: ' ' :: (q ++ ['.', 'c', 'k'])).getLast? = some 'k' := by
    have he : '+' :: ' ' :: (q ++ ['.', 'c', 'k'])
        = ('+' :: ' ' :: q ++ ['.', 'c']) ++ ['k'] := by simp
    rw [he, List.getLast?_concat]
  have h8 : matchSeq [.lit '+', .plus pyWs, .lit '"', .group [.gplus notDQ], .lit '"']
      ('+' :: ' ' :: (q ++ ['.', 'c', 'k'])) = none :=
    @matchSeq_none_last_lit [.lit '+', .plus pyWs, .lit '"', .group [.gplus notDQ]]
      '"' _ _ hlast (by decide) (by decide)
  have h9 : matchSeq [.lit '+', .plus pyWs, .lit '\'', .group [.gplus notSQ], .lit '\'']
      ('+' :: ' ' :: (q ++ ['.', 'c', 'k'])) = none :=
    @matchSeq_none_last_lit [.lit '+', .plus pyWs, .lit '\'', .group [.gplus notSQ]]
      '\'' _ _ hlast (by decide) (by decide)
  rcases hT : matchSeq [.plus pyWs, .group grpCk] (' ' :: (q ++ ['.', 'c', 'k'])) with _ | caps
  · refine (tryRules_cons_none ?_).trans ?_
    · rfl
    refine (tryRules_cons_none ?_).trans ?_
    · rfl
    refine (tryRules_cons_none ?_).trans ?_
    · rfl
    refine (tryRules_cons_none ?_).trans ?_
    · rfl
    refine (tryRules_cons_none ?_).trans ?_
    · rfl
    refine (tryRules_cons_none ?_).trans ?_
    · rfl
    refine (tryRules_cons_none ?_).trans ?_
    · exact hT
    refine (tryRules_cons_none ?_).trans ?_
    · exact h8
    refine (tryRules_cons_none ?_).trans ?_
    · exact h9
    rfl
  · refine (tryRules_cons_none ?_).trans ?_
    · rfl
    refine (tryRules_cons_none ?_).trans ?_
    · rfl
    refine (tryRules_cons_none ?_).trans ?_
    · rfl
    refine (tryRules_cons_none ?_).trans ?_
    · rfl
    refine (tryRules_cons_none ?_).trans ?_
    · rfl
    refine (tryRules_cons_none ?_).trans ?_
    · rfl
    exact tryRules_cons_some
      (show matchSeq ([RTok.lit '+', RTok.plus pyWs, RTok.group grpCk])
        ('+' :: ' ' :: (q ++ ['.', 'c', 'k'])) = some caps from hT)

/-- `parse` on a `remove <digits>` line reduces to the digit-group match. -/
theorem parse_remove_form (d : List Char) (hd : ∀ c ∈ d, c.isDigit = true) :
    parse ('r' :: 'e' :: 'm' :: 'o' :: 'v' :: 'e' :: ' ' :: d)
      = match matchSeq [.group [.gplus digitP]] d with
        | some caps => (removeShredH caps).map some
        | none => .ok none := by
  have h2 : matchSeq ([.plus pyWs] ++ lits "all") (' ' :: d) = none := by
    have e1 : matchSeq ([.plus pyWs] ++ lits "all") (' ' :: d)
        = matchSeq (lits "all") d := plusWs_step hd
    rw [e1]
    exact lit_fail_on_digits (by decide) _ hd
  have h3 : matchSeq ([.plus pyWs, .group [.gplus digitP]] : List RTok) (' ' :: d)
      = matchSeq [.group [.gplus digitP]] d := plusWs_step hd
  rcases hG : matchSeq [.group [.gplus digitP]] d with _ | caps
  · refine (tryRules_cons_none ?_).trans ?_
    · rfl
    refine (tryRules_cons_none ?_).trans ?_
    · exact h2
    refine (tryRules_cons_none ?_).trans ?_
    · exact h3.trans hG
    rfl
  · refine (tryRules_cons_none ?_).trans ?_
    · rfl
    refine (tryRules_cons_none ?_).trans ?_
    · exact h2
    exact tryRules_cons_some
      (show matchSeq (lits "remove" ++ [RTok.plus pyWs, RTok.group [GTok.gplus digitP]])
        ('r' :: 'e' :: 'm' :: 'o' :: 'v' :: 'e' :: ' ' :: d) = some caps
       from h3.trans hG)

/-- `parse` on a `- <digits>` line reduces to the same digit-group match. -/
theorem parse_dash_form (d : List Char) (hd : ∀ c ∈ d, c.isDigit = true) :
    parse ('-' :: ' ' :: d)
      = match matchSeq [.group [.gplus digitP]] d with
        | some caps => (removeShredH caps).map some
        | none => .ok none := by
  have h10 : matchSeq ([.plus pyWs] ++ lits "all") (' ' :: d) = none := by
    have e1 : matchSeq ([.plus pyWs] ++ lits "all") (' ' :: d)
        = matchSeq (lits "all") d := plusWs_step hd
    rw [e1]
    exact lit_fail_on_digits (by decide) _ hd
  have h11 : matchSeq ([.star pyWs, .group [.gplus digitP]] : List RTok) (' ' :: d)
      = match matchSeq [.group [.gplus digitP]] d with
        | some b => some b
        | none => matchSeq [.group [.gplus digitP]] (' ' :: d) := starWs_step hd
  have h11z : matchSeq [.group [.gplus digitP]] (' ' :: d) = none := rfl
  rcases hG : matchSeq [.group [.gplus digitP]] d with _ | caps
  · refine (tryRules_cons_none ?_).trans ?_
    · rfl
    refine (tryRules_cons_none ?_).trans ?_
    · rfl
    refine (tryRules_cons_none ?_).trans ?_
    · rfl
    refine (tryRules_cons_none ?_).trans ?_
    · rfl
    refine (tryRules_cons_none ?_).trans ?_
    · rfl
    refine (tryRules_cons_none ?_).trans ?_
    · rfl
    refine (tryRules_cons_none ?_).trans ?_
    · rfl
    refine (tryRules_cons_none ?_).trans ?_
    · rfl
    refine (tryRules_cons_none ?_).trans ?_
    · rfl
    refine (tryRules_cons_none ?_).trans ?_
    · exact h10
    have hv : matchSeq ([.star pyWs, .group [.gplus digitP]] : List RTok) (' ' :: d) = none := by
      rw [h11, hG, h11z]
    refine (tryRules_cons_none ?_).trans ?_
    · exact hv
    rfl
  · refine (tryRules_cons_none ?_).trans ?_
    · rfl
    refine (tryRules_cons_none ?_).trans ?_
    · rfl
    refine (tryRules_cons_none ?_).trans ?_
    · rfl
    refine (tryRules_cons_none ?_).trans ?_
    · rfl
    refine (tryRules_cons_none ?_).trans ?_
    · rfl
    refine (tryRules_cons_none ?_).trans ?_
    · rfl
    refine (tryRules_cons_none ?_).trans ?_
    · rfl
    refine (tryRules_cons_none ?_).trans ?_
    · rfl
    refine (tryRules_cons_none ?_).trans ?_
    · rfl
    refine (tryRules_cons_none ?_).trans ?_
    · exact h10
    have hv : matchSeq ([.star pyWs, .group [.gplus digitP]] : List RTok) (' ' :: d)
        = some caps := by
      rw [h11, hG]
    exact tryRules_cons_some
      (show matchSeq ([RTok.lit '-', RTok.star pyWs, RTok.group [GTok.gplus digitP]])
        ('-' :: ' ' :: d) = some caps from hv)

/-- C8: word-style commands and their symbol shortcuts parse identically:
`add p` ≡ `+ p` for every `p` ending in `.ck`, `remove d` ≡ `- d` for
every digit string `d`, and `remove all` ≡ `- all`. -/
theorem C8_alias_equivalence :
    (∀ q : List Char,
      parse ("add ".data ++ q ++ ".ck".data) = parse ("+ ".data ++ q ++ ".ck".data)) ∧
    (∀ d : List Char, (∀ c ∈ d, c.isDigit = true) →
      parse ("remove ".data ++ d) = parse ("- ".data ++ d)) ∧
    parse "remove all".data = parse "- all".data := by
  refine ⟨?_, ?_, rfl⟩
  · intro q
    have ha : parse ("add ".data ++ q ++ ".ck".data)
        = parse ('a' :: 'd' :: 'd' :: ' ' :: (q ++ ['.', 'c', 'k'])) := by
      simp
    have hb : parse ("+ ".data ++ q ++ ".ck".data)
        = parse ('+' :: ' ' :: (q ++ ['.', 'c', 'k'])) := by
      simp
    rw [ha, hb, parse_add_form, parse_plus_form]
  · intro d hd
    have ha : parse ("remove ".data ++ d)
        = parse ('r' :: 'e' :: 'm' :: 'o' :: 'v' :: 'e' :: ' ' :: d) := rfl
    have hb : parse ("- ".data ++ d) = parse ('-' :: ' ' :: d) := rfl
    rw [ha, hb, parse_remove_form d hd, parse_dash_form d hd]

/-- Witness for C8 at `foo.ck` and shred id 3. -/
theorem C8_alias_equivalence_witness :
    parse ("add ".data ++ "foo".data ++ ".ck".data)
        = parse ("+ ".data ++ "foo".data ++ ".ck".data) ∧
    parse ("remove ".data ++ ['3']) = parse ("- ".data ++ ['3']) :=
  ⟨C8_alias_equivalence.1 "foo".data, C8_alias_equivalence.2.1 ['3'] (by decide)⟩

end Chuck
